import Mathlib

/-!
# Verification development for `build.js`

`build.js` turns an HTML page into a self-contained one: every
`<link rel="stylesheet" href="...">` and every `<script src="..."></script>`
whose file can be read is replaced by a `<style>` / `<script>` block holding
the file's text.

The embedding is shallow.  JavaScript strings are lists of characters, the
two regular expressions are deterministic matchers, `String.prototype.replace`
is modelled with its `$`-substitution patterns, and the filesystem is an
explicit value passed to every function that reads or writes it.
-/

namespace Build

/-- A JavaScript string, as the list of its characters. -/
abbrev Str := List Char

/-! ## Regular expressions -/

/-- The class `\s` of ECMAScript: WhiteSpace and LineTerminator code points. -/
def isWhiteSpace (c : Char) : Bool :=
  c.toNat = 9 || c.toNat = 10 || c.toNat = 11 || c.toNat = 12 || c.toNat = 13
    || c.toNat = 32 || c.toNat = 160 || c.toNat = 5760
    || (8192 ≤ c.toNat && c.toNat ≤ 8202)
    || c.toNat = 8232 || c.toNat = 8233 || c.toNat = 8239 || c.toNat = 8287
    || c.toNat = 12288 || c.toNat = 65279

/-- The class `[^"]`. -/
def notQuote (c : Char) : Bool := c != '"'

/-- Canonicalize of the `i` flag without the `u` flag, on a code unit and
restricted to what can meet an ASCII pattern character: ASCII lower-case
letters go to upper case, and a code unit outside ASCII is never mapped into
ASCII, so it is left alone. -/
def canonicalize (n : Nat) : Nat :=
  if 97 ≤ n ∧ n ≤ 122 then n - 32 else n

/-- Match a run of literal pattern characters under the `i` flag at the head of
the input: the consumed text and the remaining input. -/
def lit : Str → Str → Option (Str × Str)
  | [], s => some ([], s)
  | _ :: _, [] => none
  | p :: ps, c :: cs =>
    if canonicalize c.toNat = canonicalize p.toNat then
      match lit ps cs with
      | some (m, r) => some (c :: m, r)
      | none => none
    else none

/-- Greedy `cls*`: the longest run of characters of the class, and the rest. -/
def many (cls : Char → Bool) (s : Str) : Str × Str :=
  (s.takeWhile cls, s.dropWhile cls)

/-- Greedy `cls+`: as `many`, failing on an empty run. -/
def many1 (cls : Char → Bool) (s : Str) : Option (Str × Str) :=
  match s.takeWhile cls with
  | [] => none
  | c :: m => some (c :: m, s.dropWhile cls)

/-- Greedy optional run of literal characters `(?:lits)?`. -/
def optLit (p : Str) (s : Str) : Str × Str :=
  match lit p s with
  | some (m, r) => (m, r)
  | none => ([], s)

/-- One attempt of `/<link\s+rel="stylesheet"\s+href="([^"]+)"\s*\/?>/i` at the
head of the input: the matched text, capture group 1, and the input after the
match.  Every quantifier is followed by a character outside its class, so the
greedy run is the only one a backtracking matcher can succeed with
(`exec_cssItems`, and `exec_jsItems` for the script pattern). -/
def cssRegex (s : Str) : Option (Str × Str × Str) := do
  let (m1, r1) ← lit "<link".toList s
  let (w1, r2) ← many1 isWhiteSpace r1
  let (m2, r3) ← lit "rel=\"stylesheet\"".toList r2
  let (w2, r4) ← many1 isWhiteSpace r3
  let (m3, r5) ← lit "href=\"".toList r4
  let (g1, r6) ← many1 notQuote r5
  let (m4, r7) ← lit "\"".toList r6
  let (w3, r8) := many isWhiteSpace r7
  let (m5, r9) := optLit "/".toList r8
  let (m6, r10) ← lit ">".toList r9
  pure (m1 ++ w1 ++ m2 ++ w2 ++ m3 ++ g1 ++ m4 ++ w3 ++ m5 ++ m6, g1, r10)

/-- The part `<script\s+src="([^"]+)"\s*>` of the script pattern. -/
def jsOpenTag (s : Str) : Option (Str × Str × Str) := do
  let (m1, r1) ← lit "<script".toList s
  let (w1, r2) ← many1 isWhiteSpace r1
  let (m2, r3) ← lit "src=\"".toList r2
  let (g1, r4) ← many1 notQuote r3
  let (m3, r5) ← lit "\"".toList r4
  let (w2, r6) := many isWhiteSpace r5
  let (m4, r7) ← lit ">".toList r6
  pure (m1 ++ w1 ++ m2 ++ g1 ++ m3 ++ w2 ++ m4, g1, r7)

/-- One attempt of `/<script\s+src="([^"]+)"\s*>(?:<\/script>)?/i` at the head
of the input: the matched text, capture group 1, and the input after it. -/
def jsRegex (s : Str) : Option (Str × Str × Str) := do
  let (u, g1, r) ← jsOpenTag s
  let (m, r1) := optLit "</script>".toList r
  pure (u ++ m, g1, r1)

/-- The loop of `String.prototype.matchAll` for a global regular expression:
try the pattern at the current index; on success record the match and go on
after it (one character further after an empty match), otherwise go on one
character further.  `fuel` bounds the number of attempts. -/
def matchAllFrom (re : Str → Option (Str × Str × Str)) : Nat → Str → List (Str × Str)
  | 0, _ => []
  | fuel + 1, s =>
    match re s with
    | some ([], g1, _) => ([], g1) :: (match s with | [] => [] | _ :: cs => matchAllFrom re fuel cs)
    | some (c :: m, g1, r) => (c :: m, g1) :: matchAllFrom re fuel r
    | none => match s with
      | [] => []
      | _ :: cs => matchAllFrom re fuel cs

/-- The array `[...s.matchAll(re)]`: each match with its text and group 1. -/
def matchAll (re : Str → Option (Str × Str × Str)) (s : Str) : List (Str × Str) :=
  matchAllFrom re (s.length + 1) s

/-! ## `String.prototype.replace` with a string pattern -/

/-- Split at the first occurrence of `pat`: the text before and the text after. -/
def splitFirst (pat : Str) : Str → Option (Str × Str)
  | [] => if pat.isPrefixOf [] then some ([], []) else none
  | c :: cs =>
    if pat.isPrefixOf (c :: cs) then some ([], (c :: cs).drop pat.length)
    else match splitFirst pat cs with
      | some (b, a) => some (c :: b, a)
      | none => none

/-- GetSubstitution for a string pattern (no capture groups): `$$` is a dollar
sign, `$&` the matched text, `$` followed by a backquote the text before the
match, `$` followed by an apostrophe the text after it; every other character,
a digit reference `$1` included, stands for itself. -/
def getSubstitution (matched before after : Str) : Str → Str
  | [] => []
  | [c] => [c]
  | c :: d :: r =>
    if c = '$' then
      if d = '$' then '$' :: getSubstitution matched before after r
      else if d = '&' then matched ++ getSubstitution matched before after r
      else if d = Char.ofNat 96 then before ++ getSubstitution matched before after r
      else if d = Char.ofNat 39 then after ++ getSubstitution matched before after r
      else c :: getSubstitution matched before after (d :: r)
    else c :: getSubstitution matched before after (d :: r)

/-- The call `s.replace(pat, repl)` with strings `pat` and `repl`: the first
occurrence of `pat` is replaced by the expansion of `repl`; without an
occurrence the string is returned as it is. -/
def jsReplace (s pat repl : Str) : Str :=
  match splitFirst pat s with
  | none => s
  | some (b, a) => b ++ getSubstitution pat b a repl ++ a

/-! ## Filesystem and path functions -/

/-- What a path holds. -/
inductive FileEntry where
  | missing
  | unreadable
  | file (content : Str)
  deriving DecidableEq, Repr

/-- The files of the machine, by absolute path. -/
abbrev Fs := Str → FileEntry

/-- The functions of Node's `path` module the program calls. -/
structure PathApi where
  resolve : Str → Str → Str
  dirname : Str → Str

/-- The call `existsSync(p)`. -/
def existsSync (fs : Fs) (p : Str) : Bool :=
  match fs p with
  | .missing => false
  | _ => true

/-- The function `readFileContent`: the file's text, or the error it rethrows. -/
def readFileContent (fs : Fs) (filePath : Str) : Except Unit Str :=
  match fs filePath with
  | .file content => .ok content
  | _ => .error ()

/-! ## The two inliners -/

/-- The function `inlineCss`. -/
def inlineCss (api : PathApi) (fs : Fs) (htmlContent baseDir : Str) : Str :=
  let ms := matchAll cssRegex htmlContent
  ms.foldl (fun result m =>
    let fullMatch := m.1
    let cssPath := m.2
    let absolutePath := api.resolve baseDir cssPath
    if !existsSync fs absolutePath then result
    else
      match readFileContent fs absolutePath with
      | .ok cssContent =>
        jsReplace result fullMatch ("<style>\n".toList ++ cssContent ++ "\n</style>".toList)
      | .error _ => result) htmlContent

/-- The function `inlineJs`. -/
def inlineJs (api : PathApi) (fs : Fs) (htmlContent baseDir : Str) : Str :=
  let ms := matchAll jsRegex htmlContent
  ms.foldl (fun result m =>
    let fullMatch := m.1
    let jsPath := m.2
    let absolutePath := api.resolve baseDir jsPath
    if !existsSync fs absolutePath then result
    else
      match readFileContent fs absolutePath with
      | .ok jsContent =>
        jsReplace result fullMatch ("<script>\n".toList ++ jsContent ++ "\n</script>".toList)
      | .error _ => result) htmlContent

/-! ## The orchestrator -/

/-- The machine `processHtml` runs on: its files, and the paths `fs.writeFile`
can write.  A write that fails (no permission, a directory in the way, a
missing parent directory) fails when the file is opened, before a byte is
written, so it leaves the files as they were. -/
structure World where
  files : Fs
  writable : Str → Bool

/-- The call `fs.writeFile(p, data, 'utf8')`. -/
def writeFile (w : World) (p data : Str) : Except Unit World :=
  if w.writable p then
    .ok { w with files := fun q => if q = p then FileEntry.file data else w.files q }
  else .error ()

/-- How a call of an `async` function ends: its promise is fulfilled, or
rejected with an error. -/
inductive Completion where
  | fulfilled
  | rejected
  deriving DecidableEq, Repr

/-- What a run of `processHtml` leaves behind: how the call ended, the machine
afterwards, and the arguments of the `fs.writeFile` call that succeeded. -/
structure Run where
  completion : Completion
  world : World
  written : Option (Str × Str)

/-- The body of the `try` block of `processHtml`: the machine afterwards and the
write performed, or the error thrown. -/
def processHtmlBody (api : PathApi) (w : World) (inputFile outputFile : Str) :
    Except Unit (World × Option (Str × Str)) :=
  if !existsSync w.files inputFile then .ok (w, none)
  else
    let baseDir := api.dirname inputFile
    match readFileContent w.files inputFile with
    | .error e => .error e
    | .ok htmlContent =>
      let htmlContent1 := inlineCss api w.files htmlContent baseDir
      let htmlContent2 := inlineJs api w.files htmlContent1 baseDir
      match writeFile w outputFile htmlContent2 with
      | .error e => .error e
      | .ok w2 => .ok (w2, some (outputFile, htmlContent2))

/-- The function `processHtml`: the `try` block, and the `catch` block that
reports the error and returns. -/
def processHtml (api : PathApi) (w : World) (inputFile outputFile : Str) : Run :=
  match processHtmlBody api w inputFile outputFile with
  | .ok (w2, wr) => { completion := .fulfilled, world := w2, written := wr }
  | .error _ => { completion := .fulfilled, world := w, written := none }

/-! ## Definitions used to state the properties -/

/-- The content an inliner gets for a reference: the file's text when the
resolved path exists and is read, nothing otherwise. -/
def lookup (api : PathApi) (fs : Fs) (baseDir path : Str) : Option Str :=
  if !existsSync fs (api.resolve baseDir path) then none
  else
    match readFileContent fs (api.resolve baseDir path) with
    | .ok c => some c
    | .error _ => none

/-- The body of the loop of `inlineCss` and `inlineJs`, over the opening and
closing text of the block. -/
def inlineStep (pre post : Str) (api : PathApi) (fs : Fs) (baseDir : Str)
    (result : Str) (m : Str × Str) : Str :=
  match lookup api fs baseDir m.2 with
  | some c => jsReplace result m.1 (pre ++ c ++ post)
  | none => result

/-- The loop shared by `inlineCss` and `inlineJs`, over a pattern `re` and the
opening and closing text of the block. -/
def inlineWith (re : Str → Option (Str × Str × Str)) (pre post : Str)
    (api : PathApi) (fs : Fs) (htmlContent baseDir : Str) : Str :=
  (matchAll re htmlContent).foldl (inlineStep pre post api fs baseDir) htmlContent

/-- The two steps of `processHtml` on the text: `inlineCss`, then `inlineJs`. -/
def inlineBoth (api : PathApi) (fs : Fs) (baseDir x : Str) : Str :=
  inlineJs api fs (inlineCss api fs x baseDir) baseDir

/-- A piece of a scanned text: a character outside every match, or a match
with its text and its path. -/
inductive Seg where
  | gap (c : Char)
  | tag (text path : Str)
  deriving DecidableEq, Repr

/-- The scan of `matchAllFrom`, keeping the characters between the matches. -/
def segmentsFrom (re : Str → Option (Str × Str × Str)) : Nat → Str → List Seg
  | 0, s => s.map Seg.gap
  | fuel + 1, s =>
    match re s with
    | some ([], g1, _) =>
      Seg.tag [] g1 :: (match s with | [] => [] | c :: cs => Seg.gap c :: segmentsFrom re fuel cs)
    | some (c :: m, g1, r) => Seg.tag (c :: m) g1 :: segmentsFrom re fuel r
    | none => match s with
      | [] => []
      | c :: cs => Seg.gap c :: segmentsFrom re fuel cs

/-- The text split into its matches and the characters between them. -/
def segments (re : Str → Option (Str × Str × Str)) (s : Str) : List Seg :=
  segmentsFrom re (s.length + 1) s

/-- The text a piece stands for. -/
def Seg.text : Seg → Str
  | .gap c => [c]
  | .tag t _ => t

/-- The match a piece stands for, when it is one. -/
def Seg.toMatch : Seg → Option (Str × Str)
  | .gap _ => none
  | .tag t p => some (t, p)

/-- A piece after positional replacement: a match whose file is read becomes
the block around the file's content, everything else stays. -/
def render (pre post : Str) (api : PathApi) (fs : Fs) (baseDir : Str) : Seg → Str
  | .gap c => [c]
  | .tag t p =>
    match lookup api fs baseDir p with
    | some c => pre ++ c ++ post
    | none => t

/-- Positional replacement, as the specification words it: the span of every
match whose file exists and is read is replaced, at its own position, by the
block around the content; every other character is left as it is. -/
def positional (re : Str → Option (Str × Str × Str)) (pre post : Str)
    (api : PathApi) (fs : Fs) (htmlContent baseDir : Str) : Str :=
  (segments re htmlContent).flatMap (render pre post api fs baseDir)

/-- A piece after positional replacement of stylesheet references. -/
def renderCss (api : PathApi) (fs : Fs) (baseDir : Str) : Seg → Str :=
  render "<style>\n".toList "\n</style>".toList api fs baseDir

/-- A piece after positional replacement of script references. -/
def renderJs (api : PathApi) (fs : Fs) (baseDir : Str) : Seg → Str :=
  render "<script>\n".toList "\n</script>".toList api fs baseDir

/-- Positional replacement of the stylesheet references of a text. -/
def positionalCss (api : PathApi) (fs : Fs) (htmlContent baseDir : Str) : Str :=
  positional cssRegex "<style>\n".toList "\n</style>".toList api fs htmlContent baseDir

/-- Positional replacement of the script references of a text. -/
def positionalJs (api : PathApi) (fs : Fs) (htmlContent baseDir : Str) : Str :=
  positional jsRegex "<script>\n".toList "\n</script>".toList api fs htmlContent baseDir

/-- The benign-content precondition, as a test: no path of a match holds `<`,
and no content read for a match holds `<` or `$`. -/
def benign (api : PathApi) (fs : Fs) (baseDir : Str) (ms : List (Str × Str)) : Bool :=
  ms.all fun m =>
    !m.2.contains '<' &&
      match lookup api fs baseDir m.2 with
      | some c => !c.contains '<' && !c.contains '$'
      | none => true

/-- No reference of the list can be inlined: every file is missing or unreadable. -/
def unresolvable (api : PathApi) (fs : Fs) (baseDir : Str) (ms : List (Str × Str)) : Bool :=
  ms.all fun m => (lookup api fs baseDir m.2).isNone

/-- No path of a match of the list holds `<`. -/
def pathsClean (ms : List (Str × Str)) : Bool :=
  ms.all fun m => !m.2.contains '<'

/-! ## Definitions used in the proofs -/

/-- Equality of two characters under the `i` flag. -/
def ciEq (c q : Char) : Prop := canonicalize c.toNat = canonicalize q.toNat

/-- The texts the stylesheet pattern matches, with their group 1. -/
def CssShape (t g : Str) : Prop :=
  ∃ m1 w1 m2 w2 m3 m4 w3 m5 m6 : Str,
    t = m1 ++ (w1 ++ (m2 ++ (w2 ++ (m3 ++ (g ++ (m4 ++ (w3 ++ (m5 ++ m6)))))))) ∧
    List.Forall₂ ciEq m1 "<link".toList ∧
    (w1 ≠ [] ∧ ∀ c ∈ w1, isWhiteSpace c = true) ∧
    List.Forall₂ ciEq m2 "rel=\"stylesheet\"".toList ∧
    (w2 ≠ [] ∧ ∀ c ∈ w2, isWhiteSpace c = true) ∧
    List.Forall₂ ciEq m3 "href=\"".toList ∧
    (g ≠ [] ∧ ∀ c ∈ g, notQuote c = true) ∧
    List.Forall₂ ciEq m4 "\"".toList ∧
    (∀ c ∈ w3, isWhiteSpace c = true) ∧
    (m5 = [] ∨ List.Forall₂ ciEq m5 "/".toList) ∧
    List.Forall₂ ciEq m6 ">".toList

/-- The texts the opening part of the script pattern matches, with group 1. -/
def JsOpenShape (u g : Str) : Prop :=
  ∃ m1 w1 m2 m3 w2 m4 : Str,
    u = m1 ++ (w1 ++ (m2 ++ (g ++ (m3 ++ (w2 ++ m4))))) ∧
    List.Forall₂ ciEq m1 "<script".toList ∧
    (w1 ≠ [] ∧ ∀ c ∈ w1, isWhiteSpace c = true) ∧
    List.Forall₂ ciEq m2 "src=\"".toList ∧
    (g ≠ [] ∧ ∀ c ∈ g, notQuote c = true) ∧
    List.Forall₂ ciEq m3 "\"".toList ∧
    (∀ c ∈ w2, isWhiteSpace c = true) ∧
    List.Forall₂ ciEq m4 ">".toList

/-- No `<` of the text is followed by a character that canonicalizes to `K`, and
the text does not end in `<`. -/
def coldText (K : Nat) : Str → Bool
  | [] => true
  | [c] => c != '<'
  | c :: d :: r => (c != '<' || canonicalize d.toNat != K) && coldText K (d :: r)

/-- The facts about a pattern `re`, its opening part `op` and its block that
the positional theorems rest on. -/
structure TagLaws (re op : Str → Option (Str × Str × Str)) (pre post : Str) : Prop where
  re_split : ∀ {s t p r}, re s = some (t, p, r) → s = t ++ r
  re_open : ∀ {s t p r}, re s = some (t, p, r) → ∃ u o, t = u ++ o ∧ op s = some (u, p, o ++ r)
  re_inner : ∀ {s t p r}, re s = some (t, p, r) → '<' ∉ p →
    ∀ a b, t = a ++ '<' :: b → a ≠ [] → ∃ b', b = '/' :: b'
  op_shape : ∀ {s u p z}, op s = some (u, p, z) →
    s = u ++ z ∧ ∃ k u', u = '<' :: k :: u' ∧ k ≠ '/' ∧ ('<' ∉ p → '<' ∉ k :: u')
  op_ext : ∀ {s u p z} (z' : Str), op s = some (u, p, z) → op (u ++ z') = some (u, p, z')
  op_re : ∀ {s u p z}, op s = some (u, p, z) → ∃ t r, re s = some (t, p, r)
  block_cold : ∀ c, '<' ∉ c → ∀ a b z, pre ++ c ++ post = a ++ b → b ≠ [] → op (b ++ z) = none
  pre_head : ∃ k pre', pre = '<' :: k :: pre' ∧ k ≠ '/'
  re_transfer : ∀ {s t p r} (r' : Str), re s = some (t, p, r) →
    (∀ w, '<' ∉ w → '<' :: '/' :: w <+: r' → '<' :: '/' :: w <+: r) →
    re (t ++ r') = some (t, p, r')
  no_dollar : '$' ∉ pre ∧ '$' ∉ post

/-- What the proofs use of a pattern `reA` and its block against the opening
part `opB` of another pattern: `opB` matches at no position of a match of `reA`
whose path holds no `<`, nor of a block of `reA` whose content holds no `<`. -/
structure CrossLaws (reA : Str → Option (Str × Str × Str)) (preA postA : Str)
    (opB : Str → Option (Str × Str × Str)) : Prop where
  tag_cold : ∀ {s t p r}, reA s = some (t, p, r) → '<' ∉ p →
    ∀ a b Y, t = a ++ b → b ≠ [] → opB (b ++ Y) = none
  block_cold : ∀ c, '<' ∉ c → ∀ a b Y, preA ++ c ++ postA = a ++ b → b ≠ [] → opB (b ++ Y) = none

/-- No position of `R`, in the text `R ++ s`, starts an opening tag whose path
has no `<` and whose file is read. -/
def Cold (op : Str → Option (Str × Str × Str)) (api : PathApi) (fs : Fs) (baseDir : Str)
    (R s : Str) : Prop :=
  ∀ a b, R = a ++ b → b ≠ [] → ∀ u p z, op (b ++ s) = some (u, p, z) → '<' ∉ p →
    lookup api fs baseDir p = none

/-- The benign-content precondition on a list of matches: no path holds `<`, and
no content read holds `<` or `$`. -/
def Benign (api : PathApi) (fs : Fs) (baseDir : Str) (ms : List (Str × Str)) : Prop :=
  ∀ m ∈ ms, '<' ∉ m.2 ∧ ∀ c, lookup api fs baseDir m.2 = some c → '<' ∉ c ∧ '$' ∉ c

/-! ## The patterns as backtracking matchers: definitions -/

/-- An item of a pattern: a literal character under the `i` flag, a greedy
`cls*`, a greedy `cls+`, the capture group `(cls+)`, or a greedy optional run
of literal characters `(?:lits)?`. -/
inductive Item where
  | chr (c : Char)
  | star (cls : Char → Bool)
  | plus (cls : Char → Bool)
  | group (cls : Char → Bool)
  | opt (lits : Str)

/-- The ways to split off a run of characters of a class, the longest first, as
a greedy quantifier tries them. -/
def splits (cls : Char → Bool) : Str → List (Str × Str)
  | [] => [([], [])]
  | c :: cs =>
    if cls c then (splits cls cs).map (fun x => (c :: x.1, x.2)) ++ [([], c :: cs)]
    else [([], c :: cs)]

/-- The ways an item matches at the head of the input, in the order a
backtracking matcher tries them: the text consumed, what the capture group
holds, and the remaining input. -/
def runItem : Item → Str → List (Str × Option Str × Str)
  | .chr _, [] => []
  | .chr p, c :: cs => if canonicalize c.toNat = canonicalize p.toNat then [([c], none, cs)] else []
  | .star cls, s => (splits cls s).map (fun x => (x.1, none, x.2))
  | .plus cls, s => ((splits cls s).filter (fun x => !x.1.isEmpty)).map (fun x => (x.1, none, x.2))
  | .group cls, s =>
    ((splits cls s).filter (fun x => !x.1.isEmpty)).map (fun x => (x.1, some x.1, x.2))
  | .opt lits, s =>
    (match lit lits s with
      | some (m, r) => [(m, none, r)]
      | none => []) ++ [([], none, s)]

/-- The ways a sequence of items matches at the head of the input, in the order
a backtracking matcher tries them. -/
def runItems : List Item → Str → List (Str × Option Str × Str)
  | [], s => [([], none, s)]
  | i :: is, s =>
    (runItem i s).flatMap (fun x =>
      (runItems is x.2.2).map (fun y => (x.1 ++ y.1, x.2.1 <|> y.2.1, y.2.2)))

/-- One attempt of a pattern at the head of the input by backtracking: the
first way its items match. -/
def exec (items : List Item) (s : Str) : Option (Str × Str × Str) :=
  (runItems items s).head?.map (fun x => (x.1, x.2.1.getD [], x.2.2))

/-- The items of `/<link\s+rel="stylesheet"\s+href="([^"]+)"\s*\/?>/i`. -/
def cssItems : List Item :=
  "<link".toList.map Item.chr ++ [Item.plus isWhiteSpace]
    ++ "rel=\"stylesheet\"".toList.map Item.chr ++ [Item.plus isWhiteSpace]
    ++ "href=\"".toList.map Item.chr ++ [Item.group notQuote] ++ "\"".toList.map Item.chr
    ++ [Item.star isWhiteSpace, Item.opt "/".toList] ++ ">".toList.map Item.chr

/-- The items of `/<script\s+src="([^"]+)"\s*>(?:<\/script>)?/i`. -/
def jsItems : List Item :=
  "<script".toList.map Item.chr ++ [Item.plus isWhiteSpace]
    ++ "src=\"".toList.map Item.chr ++ [Item.group notQuote] ++ "\"".toList.map Item.chr
    ++ [Item.star isWhiteSpace] ++ ">".toList.map Item.chr ++ [Item.opt "</script>".toList]

/-- The first way a sequence of items matches, if there is one. -/
def first (items : List Item) (s : Str) : Option (Str × Option Str × Str) :=
  (runItems items s).head?

/-! ## Concrete pages and filesystems -/

/-- A path API for examples: `resolve` joins with a slash, `dirname` is fixed. -/
def joinApi : PathApi where
  resolve := fun base p => base ++ '/' :: p
  dirname := fun _ => "/site".toList

/-- A filesystem given by a list of files. -/
def fsOf (files : List (String × String)) : Fs := fun p =>
  match files.find? (fun e => e.1.toList = p) with
  | some e => .file e.2.toList
  | none => .missing

/-- A machine whose files are the listed ones and where every write succeeds. -/
def worldOf (files : List (String × String)) : World where
  files := fsOf files
  writable := fun _ => true

/-- The page of the worked example. -/
def examplePage : Str :=
  "<html><head><link rel=\"stylesheet\" href=\"a.css\"></head><body><script src=\"b.js\"></script></body></html>".toList

/-- The page of the worked example after the stylesheet is inlined. -/
def examplePageCss : Str :=
  "<html><head><style>\nbody\x7bcolor:red\x7d\n</style></head><body><script src=\"b.js\"></script></body></html>".toList

/-- The page of the worked example with both references inlined. -/
def examplePageInlined : Str :=
  "<html><head><style>\nbody\x7bcolor:red\x7d\n</style></head><body><script>\nconsole.log(1)\n</script></body></html>".toList

/-- The files of the worked example. -/
def exampleFiles : List (String × String) :=
  [("/site/a.css", "body\x7bcolor:red\x7d"), ("/site/b.js", "console.log(1)")]

/-- A page without a stylesheet or script reference. -/
def plainPage : Str := "<html><body><p>Hello</p></body></html>".toList

/-- A page that is one stylesheet reference. -/
def linkPage : Str := "<link rel=\"stylesheet\" href=\"a.css\">".toList

/-- A page with one script reference inside a paragraph. -/
def scriptPage : Str := "<p><script src=\"b.js\"></script></p>".toList

/-- A stylesheet and a script whose text holds `$` patterns. -/
def dollarFiles : List (String × String) :=
  [("/site/a.css", "p::after\x7bcontent:\"$$\"\x7d"), ("/site/b.js", "s.replace(/a/,\"$&\")")]

/-- A page whose stylesheet reference and script reference overlap. -/
def overlapPage : Str := "<link rel=\"stylesheet\" href=\"x<script src=\">y\"></script>".toList

/-- The one file the overlapping script reference names. -/
def overlapFiles : List (String × String) := [("/site/>y", "z")]

/-- A page with three script references, the second to a missing file. -/
def straddlePage : Str :=
  "<script src=\"a.js\"></script><script src=\">m.js\"></script><script src=\"x\n</script><script src=\">".toList

/-- The files of `straddlePage`: the first script ends in an unfinished tag. -/
def straddleFiles : List (String × String) :=
  [("/site/a.js", "<script src=\"x"), ("/site/x\n</script><script src=", "d")]

/-- A stylesheet whose comment quotes the tag that references it. -/
def quotingFiles : List (String × String) :=
  [("/site/a.css", "/* was <link rel=\"stylesheet\" href=\"a.css\"> */")]

/-- A stylesheet whose comment holds a reference to a second stylesheet. -/
def nestedCssFiles : List (String × String) :=
  [("/site/a.css", "/* <link rel=\"stylesheet\" href=\"b.css\"> */"), ("/site/b.css", "x")]

/-- A stylesheet whose comment holds a reference to a script. -/
def nestedJsFiles : List (String × String) :=
  [("/site/a.css", "/* <script src=\"b.js\"></script> */"), ("/site/b.js", "x")]

/-- A page with a readable and a missing reference of each kind. -/
def mixedPage : Str :=
  "<link rel=\"stylesheet\" href=\"a.css\"><link rel=\"stylesheet\" href=\"gone.css\"><script src=\"gone.js\"></script><script src=\"b.js\"></script>".toList

/-- The page `mixedPage` after `inlineCss`. -/
def mixedPageCss : Str :=
  "<style>\nbody\x7bcolor:red\x7d\n</style><link rel=\"stylesheet\" href=\"gone.css\"><script src=\"gone.js\"></script><script src=\"b.js\"></script>".toList

/-- The tag of `mixedPage` that names the missing stylesheet. -/
def goneCssTag : Str := "<link rel=\"stylesheet\" href=\"gone.css\">".toList

/-- The tag of `mixedPage` that names the missing script. -/
def goneJsTag : Str := "<script src=\"gone.js\"></script>".toList

/-- The pieces of `mixedPage` before the missing stylesheet reference. -/
def mixedBefore : List Seg := [Seg.tag linkPage "a.css".toList]

/-- The pieces of `mixedPage` after the missing stylesheet reference. -/
def mixedAfter : List Seg :=
  "<script src=\"gone.js\"></script><script src=\"b.js\"></script>".toList.map Seg.gap

/-- The pieces of `mixedPageCss` before the missing script reference. -/
def mixedCssBefore : List Seg :=
  "<style>\nbody\x7bcolor:red\x7d\n</style><link rel=\"stylesheet\" href=\"gone.css\">".toList.map Seg.gap

/-- The pieces of `mixedPageCss` after the missing script reference. -/
def mixedCssAfter : List Seg := [Seg.tag "<script src=\"b.js\"></script>".toList "b.js".toList]

/-- A page with each reference of the worked example twice. -/
def twicePage : Str :=
  "<link rel=\"stylesheet\" href=\"a.css\"><p>x</p><link rel=\"stylesheet\" href=\"a.css\"><script src=\"b.js\"></script><script src=\"b.js\"></script>".toList

/-- The page `twicePage` with every stylesheet reference replaced. -/
def twicePageCss : Str :=
  "<style>\nbody\x7bcolor:red\x7d\n</style><p>x</p><style>\nbody\x7bcolor:red\x7d\n</style><script src=\"b.js\"></script><script src=\"b.js\"></script>".toList

/-- The page `twicePage` with every script reference replaced. -/
def twicePageJs : Str :=
  "<link rel=\"stylesheet\" href=\"a.css\"><p>x</p><link rel=\"stylesheet\" href=\"a.css\"><script>\nconsole.log(1)\n</script><script>\nconsole.log(1)\n</script>".toList

set_option maxRecDepth 100000

/-! ## Lists and `replace` -/

theorem splitFirst_at (pat : Str) (hpat : pat ≠ []) (r : Str) :
    ∀ R : Str, (∀ a b, R = a ++ b → b ≠ [] → ¬ pat <+: b ++ (pat ++ r)) →
      splitFirst pat (R ++ (pat ++ r)) = some (R, r) := by
  intro R
  induction R with
  | nil =>
    intro _
    obtain ⟨c, cs, hc⟩ := List.exists_cons_of_ne_nil hpat
    have hp : pat.isPrefixOf (pat ++ r) = true := by
      rw [List.isPrefixOf_iff_prefix]; exact List.prefix_append _ _
    subst hc
    simp only [List.nil_append, List.cons_append] at hp ⊢
    simp [splitFirst, hp]
  | cons c R ih =>
    intro h
    have hn : pat.isPrefixOf (c :: R ++ (pat ++ r)) = false := by
      rw [Bool.eq_false_iff]
      intro hp
      rw [List.isPrefixOf_iff_prefix] at hp
      exact h [] (c :: R) rfl (by simp) hp
    have ih2 := ih (fun a b hab hb => h (c :: a) b (by simp [hab]) hb)
    simp only [List.cons_append] at hn ⊢
    simp [splitFirst, hn, ih2]

theorem getSubstitution_id (matched before after : Str) :
    ∀ x : Str, '$' ∉ x → getSubstitution matched before after x = x := by
  intro x
  induction x using getSubstitution.induct matched before after with
  | case8 c d r hc ih =>
    intro h
    rw [getSubstitution]
    simp only [hc, if_false]
    rw [ih (by intro h2; exact h (List.mem_cons_of_mem _ h2))]
  | _ => intro h; first | rfl | simp at h

theorem jsReplace_at (R t r repl : Str) (ht : t ≠ []) (hd : '$' ∉ repl)
    (h : ∀ a b, R = a ++ b → b ≠ [] → ¬ t <+: b ++ (t ++ r)) :
    jsReplace (R ++ (t ++ r)) t repl = R ++ (repl ++ r) := by
  simp [jsReplace, splitFirst_at t ht r R h, getSubstitution_id _ _ _ repl hd]

theorem prefix_of_prefix_append_lt (u' b rest : Str) (hb : b ≠ []) (hu : '<' ∉ u')
    (h : '<' :: u' <+: b ++ '<' :: rest) : '<' :: u' <+: b := by
  rcases List.prefix_or_prefix_of_prefix h (List.prefix_append b ('<' :: rest)) with h1 | h1
  · exact h1
  · obtain ⟨w, hw⟩ := h1
    rw [← hw] at h
    rw [List.prefix_append_right_inj] at h
    cases w with
    | nil => simp at hw; rw [hw]
    | cons x w =>
      have hx : x = '<' := by
        obtain ⟨v, hv⟩ := h
        simp at hv
        exact hv.1
      subst hx
      exfalso
      cases b with
      | nil => exact hb rfl
      | cons y b =>
        simp at hw
        apply hu
        rw [← hw.2]
        simp

/-! ## Characters -/

theorem char_eq_of_toNat {c q : Char} (h : c.toNat = q.toNat) : c = q := by
  rw [← Char.ofNat_toNat c, h, Char.ofNat_toNat]

theorem ciEq_cases {c q : Char} (h : ciEq c q) :
    c = q ∨ (97 ≤ c.toNat ∧ c.toNat ≤ 122 ∧ q.toNat + 32 = c.toNat)
      ∨ (97 ≤ q.toNat ∧ q.toNat ≤ 122 ∧ c.toNat + 32 = q.toNat) := by
  unfold ciEq canonicalize at h
  split_ifs at h with h1 h2 h2
  · left; apply char_eq_of_toNat; omega
  · right; left; omega
  · right; right; omega
  · left; exact char_eq_of_toNat h

theorem ciEq_whiteSpace {c q : Char} (h : ciEq c q) : isWhiteSpace c = isWhiteSpace q := by
  rcases ciEq_cases h with h | ⟨h1, h2, h3⟩ | ⟨h1, h2, h3⟩
  · rw [h]
  · have hq : isWhiteSpace q = false := by
      simp only [isWhiteSpace, Bool.or_eq_false_iff, Bool.and_eq_false_iff, decide_eq_false_iff_not]
      omega
    have hc : isWhiteSpace c = false := by
      simp only [isWhiteSpace, Bool.or_eq_false_iff, Bool.and_eq_false_iff, decide_eq_false_iff_not]
      omega
    rw [hq, hc]
  · have hq : isWhiteSpace q = false := by
      simp only [isWhiteSpace, Bool.or_eq_false_iff, Bool.and_eq_false_iff, decide_eq_false_iff_not]
      omega
    have hc : isWhiteSpace c = false := by
      simp only [isWhiteSpace, Bool.or_eq_false_iff, Bool.and_eq_false_iff, decide_eq_false_iff_not]
      omega
    rw [hq, hc]

theorem ciEq_lt {c q : Char} (h : ciEq c q) (hq : q ≠ '<') : c ≠ '<' := by
  intro hc
  subst hc
  rcases ciEq_cases h with h | ⟨h1, -, -⟩ | ⟨h1, h2, h3⟩
  · exact hq h.symm
  · simp at h1
  · simp at h3
    omega

theorem ciEq_symbol {d q : Char} (hq : q.toNat < 65) (h : ciEq d q) : d = q := by
  rcases ciEq_cases h with h | ⟨h1, h2, h3⟩ | ⟨h1, h2, h3⟩
  · exact h
  · omega
  · omega

theorem ciEq_letter {c q : Char} (h : ciEq c q) (hq : 65 ≤ q.toNat) : 65 ≤ c.toNat := by
  rcases ciEq_cases h with h | ⟨h1, h2, h3⟩ | ⟨h1, h2, h3⟩
  · rw [h]; exact hq
  · omega
  · omega

theorem ws_of_ciEq {q : Char} (hq : isWhiteSpace q = false) (d : Char) (h : ciEq d q) :
    isWhiteSpace d = false := by
  rw [ciEq_whiteSpace h, hq]

theorem quote_of_ciEq (d : Char) (h : ciEq d '"') : notQuote d = false := by
  have := ciEq_symbol (by decide) h
  subst this
  rfl

/-! ## The pieces of a pattern -/

theorem lit_some : ∀ {p s m r : Str}, lit p s = some (m, r) → s = m ++ r ∧ List.Forall₂ ciEq m p := by
  intro p
  induction p with
  | nil =>
    intro s m r h
    simp [lit] at h
    obtain ⟨h1, h2⟩ := h
    subst h1; subst h2
    simp
  | cons q ps ih =>
    intro s m r h
    cases s with
    | nil => simp [lit] at h
    | cons c cs =>
      rw [lit] at h
      split_ifs at h with hc
      cases hl : lit ps cs with
      | none => rw [hl] at h; cases h
      | some v =>
        obtain ⟨m', r'⟩ := v
        rw [hl] at h
        simp at h
        obtain ⟨h1, h2⟩ := h
        subst h1; subst h2
        obtain ⟨h3, h4⟩ := ih hl
        subst h3
        exact ⟨rfl, List.Forall₂.cons hc h4⟩

theorem lit_append : ∀ {p m : Str}, List.Forall₂ ciEq m p → ∀ x : Str, lit p (m ++ x) = some (m, x) := by
  intro p m h
  induction h with
  | nil => intro x; simp [lit]
  | cons hc _ ih =>
    intro x
    unfold ciEq at hc
    simp [lit, hc, ih x]

theorem lit_head_none {q c : Char} (ps cs : Str) (h : ¬ ciEq c q) : lit (q :: ps) (c :: cs) = none := by
  unfold ciEq at h
  simp [lit, h]

theorem many1_some {cls : Char → Bool} {s w r : Str} (h : many1 cls s = some (w, r)) :
    s = w ++ r ∧ w ≠ [] ∧ ∀ c ∈ w, cls c = true := by
  unfold many1 at h
  split at h
  · cases h
  · rename_i c m hm
    simp at h
    obtain ⟨h1, h2⟩ := h
    subst h1; subst h2
    refine ⟨?_, by simp, ?_⟩
    · rw [← hm, List.takeWhile_append_dropWhile]
    · intro x hx
      rw [← hm] at hx
      exact List.mem_takeWhile_imp hx

theorem takeWhile_run {cls : Char → Bool} {w : Str} (hall : ∀ c ∈ w, cls c = true)
    (d : Char) (x : Str) (hd : cls d = false) :
    (w ++ d :: x).takeWhile cls = w ∧ (w ++ d :: x).dropWhile cls = d :: x := by
  constructor
  · rw [List.takeWhile_append_of_pos hall]
    simp [List.takeWhile_cons, hd]
  · rw [List.dropWhile_append_of_pos hall]
    simp [List.dropWhile_cons, hd]

theorem many1_append {cls : Char → Bool} {w : Str} (hw : w ≠ []) (hall : ∀ c ∈ w, cls c = true)
    (d : Char) (x : Str) (hd : cls d = false) : many1 cls (w ++ d :: x) = some (w, d :: x) := by
  obtain ⟨h1, h2⟩ := takeWhile_run hall d x hd
  unfold many1
  rw [h1, h2]
  cases w with
  | nil => exact absurd rfl hw
  | cons c m => rfl

theorem many_eq {cls : Char → Bool} {s w r : Str} (h : many cls s = (w, r)) :
    s = w ++ r ∧ ∀ c ∈ w, cls c = true := by
  unfold many at h
  simp at h
  obtain ⟨h1, h2⟩ := h
  subst h1; subst h2
  exact ⟨(List.takeWhile_append_dropWhile _ _).symm, fun x hx => List.mem_takeWhile_imp hx⟩

theorem many_append {cls : Char → Bool} {w : Str} (hall : ∀ c ∈ w, cls c = true)
    (d : Char) (x : Str) (hd : cls d = false) : many cls (w ++ d :: x) = (w, d :: x) := by
  obtain ⟨h1, h2⟩ := takeWhile_run hall d x hd
  unfold many
  rw [h1, h2]

theorem optLit_eq {p s m r : Str} (h : optLit p s = (m, r)) :
    s = m ++ r ∧ ((m = [] ∧ r = s ∧ lit p s = none) ∨ List.Forall₂ ciEq m p) := by
  unfold optLit at h
  cases hl : lit p s with
  | none =>
    rw [hl] at h
    simp at h
    obtain ⟨h1, h2⟩ := h
    subst h1; subst h2
    simp
  | some v =>
    obtain ⟨m', r'⟩ := v
    rw [hl] at h
    simp at h
    obtain ⟨h1, h2⟩ := h
    subst h1; subst h2
    obtain ⟨h3, h4⟩ := lit_some hl
    exact ⟨h3, Or.inr h4⟩

theorem head_of_lit {m ps : Str} {q : Char} (h : List.Forall₂ ciEq m (q :: ps)) :
    ∃ d m', m = d :: m' ∧ ciEq d q ∧ List.Forall₂ ciEq m' ps := by
  obtain ⟨d, m', h1, h2, h3⟩ := List.forall₂_cons_right_iff.1 h
  exact ⟨d, m', h3, h1, h2⟩

theorem many1_before_lit {cls : Char → Bool} {w m ps : Str} {q : Char} (hw : w ≠ [])
    (hall : ∀ c ∈ w, cls c = true) (hm : List.Forall₂ ciEq m (q :: ps))
    (hq : ∀ d, ciEq d q → cls d = false) (x : Str) :
    many1 cls (w ++ (m ++ x)) = some (w, m ++ x) := by
  obtain ⟨d, m', h1, h2, -⟩ := head_of_lit hm
  subst h1
  exact many1_append hw hall d (m' ++ x) (hq d h2)

theorem many_before_lit {cls : Char → Bool} {w m ps : Str} {q : Char}
    (hall : ∀ c ∈ w, cls c = true) (hm : List.Forall₂ ciEq m (q :: ps))
    (hq : ∀ d, ciEq d q → cls d = false) (x : Str) :
    many cls (w ++ (m ++ x)) = (w, m ++ x) := by
  obtain ⟨d, m', h1, h2, -⟩ := head_of_lit hm
  subst h1
  exact many_append hall d (m' ++ x) (hq d h2)

theorem optLit_append {p m : Str} (h : List.Forall₂ ciEq m p) (x : Str) :
    optLit p (m ++ x) = (m, x) := by
  simp [optLit, lit_append h x]

theorem optLit_skip {m ps qs : Str} {q q' : Char} (h : List.Forall₂ ciEq m (q :: ps))
    (hq : ∀ d, ciEq d q → ¬ ciEq d q') (x : Str) :
    optLit (q' :: qs) (m ++ x) = ([], m ++ x) := by
  obtain ⟨d, m', h1, h2, -⟩ := head_of_lit h
  subst h1
  simp [optLit, lit_head_none qs (m' ++ x) (hq d h2)]

theorem lit_no_lt {m p : Str} (h : List.Forall₂ ciEq m p) (hp : '<' ∉ p) : '<' ∉ m := by
  induction h with
  | nil => simp
  | cons hc _ ih =>
    simp only [List.mem_cons, not_or] at hp ⊢
    exact ⟨fun e => ciEq_lt hc (fun e2 => hp.1 e2.symm) e.symm, ih hp.2⟩

theorem ws_no_lt {w : Str} (h : ∀ c ∈ w, isWhiteSpace c = true) : '<' ∉ w := by
  intro hm
  have := h _ hm
  revert this
  decide

theorem opt_no_lt {m p : Str} (h : m = [] ∨ List.Forall₂ ciEq m p) (hp : '<' ∉ p) : '<' ∉ m := by
  rcases h with h | h
  · subst h; simp
  · exact lit_no_lt h hp

/-! ## The patterns as backtracking matchers -/

theorem runItems_chr (p : Char) (is : List Item) (s : Str) :
    runItems (Item.chr p :: is) s
      = match lit [p] s with
        | some (m, r) => (runItems is r).map (fun y => (m ++ y.1, y.2.1, y.2.2))
        | none => [] := by
  cases s with
  | nil => simp [runItems, runItem, lit]
  | cons c cs =>
    by_cases h : canonicalize c.toNat = canonicalize p.toNat
    · simp [runItems, runItem, lit, h]
    · simp [runItems, runItem, lit, h]

theorem runItems_lits (p : Str) (is : List Item) : ∀ s : Str,
    runItems (p.map Item.chr ++ is) s
      = match lit p s with
        | some (m, r) => (runItems is r).map (fun y => (m ++ y.1, y.2.1, y.2.2))
        | none => [] := by
  induction p with
  | nil =>
    intro s
    simp [lit]
  | cons q p ih =>
    intro s
    rw [List.map_cons, List.cons_append, runItems_chr]
    cases s with
    | nil => simp [lit]
    | cons c cs =>
      by_cases h : canonicalize c.toNat = canonicalize q.toNat
      · simp only [lit, h, if_true]
        rw [ih cs]
        cases lit p cs with
        | none => simp
        | some v =>
          obtain ⟨m, r⟩ := v
          simp [List.map_map, Function.comp]
      · simp [lit, h]

/-- The longest run comes first; every other split leaves a character of the
class at the head of the rest. -/
theorem splits_spec (cls : Char → Bool) : ∀ s : Str,
    ∃ tl, splits cls s = (s.takeWhile cls, s.dropWhile cls) :: tl ∧
      ∀ x ∈ tl, ∃ c r, x.2 = c :: r ∧ cls c = true := by
  intro s
  induction s with
  | nil => exact ⟨[], rfl, by simp⟩
  | cons c cs ih =>
    obtain ⟨tl, h1, h2⟩ := ih
    by_cases hc : cls c = true
    · refine ⟨tl.map (fun x => (c :: x.1, x.2)) ++ [([], c :: cs)], ?_, ?_⟩
      · simp [splits, hc, h1, List.takeWhile_cons, List.dropWhile_cons]
      · intro x hx
        simp only [List.mem_append, List.mem_map, List.mem_singleton] at hx
        rcases hx with ⟨y, hy, rfl⟩ | rfl
        · exact h2 y hy
        · exact ⟨c, cs, rfl, hc⟩
    · refine ⟨[], ?_, by simp⟩
      simp [splits, hc, List.takeWhile_cons, List.dropWhile_cons]

/-- A continuation that fails on every input headed by a character of the class
sees only the longest run. -/
theorem flatMap_splits {β : Type} (cls : Char → Bool) (s : Str)
    (K : Str × Str → List β) (hK : ∀ m c r, cls c = true → K (m, c :: r) = []) :
    (splits cls s).flatMap K = K (s.takeWhile cls, s.dropWhile cls) := by
  obtain ⟨tl, h1, h2⟩ := splits_spec cls s
  rw [h1, List.flatMap_cons]
  have : tl.flatMap K = [] := by
    rw [List.flatMap_eq_nil_iff]
    intro x hx
    obtain ⟨c, r, hr, hc⟩ := h2 x hx
    have := hK x.1 c r hc
    rw [← hr] at this
    exact this
  rw [this, List.append_nil]

theorem flatMap_filter {α β : Type} (p : α → Bool) (K : α → List β) : ∀ l : List α,
    (l.filter p).flatMap K = l.flatMap (fun x => if p x = true then K x else []) := by
  intro l
  induction l with
  | nil => rfl
  | cons a l ih =>
    by_cases h : p a = true
    · simp [List.filter_cons, h, List.flatMap_cons, ih]
    · simp [List.filter_cons, h, List.flatMap_cons, ih]

theorem first_nil (s : Str) : first [] s = some ([], none, s) := rfl

theorem first_lits (p : Str) (is : List Item) (s : Str) :
    first (p.map Item.chr ++ is) s
      = match lit p s with
        | some (m, r) => (first is r).map (fun y => (m ++ y.1, y.2.1, y.2.2))
        | none => none := by
  unfold first
  rw [runItems_lits]
  cases lit p s with
  | none => rfl
  | some v => simp [List.head?_map]

theorem first_star (cls : Char → Bool) (is : List Item) (s : Str)
    (hK : ∀ c r, cls c = true → runItems is (c :: r) = []) :
    first (Item.star cls :: is) s
      = (first is (many cls s).2).map (fun y => ((many cls s).1 ++ y.1, y.2.1, y.2.2)) := by
  unfold first
  rw [runItems]
  simp only [runItem, List.flatMap_map]
  rw [flatMap_splits cls s _ (fun m c r hc => by simp [hK c r hc])]
  simp [many, List.head?_map]

theorem first_plus (cls : Char → Bool) (is : List Item) (s : Str)
    (hK : ∀ c r, cls c = true → runItems is (c :: r) = []) :
    first (Item.plus cls :: is) s
      = match many1 cls s with
        | some (w, r) => (first is r).map (fun y => (w ++ y.1, y.2.1, y.2.2))
        | none => none := by
  unfold first
  rw [runItems]
  simp only [runItem, List.flatMap_map, flatMap_filter]
  rw [flatMap_splits cls s _ (fun m c r hc => by simp [hK c r hc])]
  unfold many1
  cases h : s.takeWhile cls with
  | nil => simp
  | cons c m => simp [List.head?_map]

theorem first_group (cls : Char → Bool) (is : List Item) (s : Str)
    (hK : ∀ c r, cls c = true → runItems is (c :: r) = []) :
    first (Item.group cls :: is) s
      = match many1 cls s with
        | some (w, r) => (first is r).map (fun y => (w ++ y.1, some w, y.2.2))
        | none => none := by
  unfold first
  rw [runItems]
  simp only [runItem, List.flatMap_map, flatMap_filter]
  rw [flatMap_splits cls s _ (fun m c r hc => by simp [hK c r hc])]
  unfold many1
  cases h : s.takeWhile cls with
  | nil => simp
  | cons c m => simp [List.head?_map]

theorem first_opt_last (L s : Str) :
    first [Item.opt L] s = some ((optLit L s).1, none, (optLit L s).2) := by
  unfold first optLit
  rw [runItems]
  cases h : lit L s with
  | none => simp [runItem, h, runItems]
  | some v => simp [runItem, h, runItems]

theorem first_opt (L : Str) (is : List Item) (s : Str)
    (hK : ∀ m r, lit L s = some (m, r) → runItems is s = []) :
    first (Item.opt L :: is) s
      = (first is (optLit L s).2).map (fun y => ((optLit L s).1 ++ y.1, y.2.1, y.2.2)) := by
  unfold first optLit
  rw [runItems]
  cases h : lit L s with
  | none => simp [runItem, h, List.head?_map]
  | some v =>
    obtain ⟨m, r⟩ := v
    have := hK m r h
    simp [runItem, h, this, List.head?_map]

theorem runItems_lits_guard (q : Char) (p : Str) (is : List Item) (c : Char) (r : Str)
    (h : ¬ ciEq c q) : runItems ((q :: p).map Item.chr ++ is) (c :: r) = [] := by
  rw [runItems_lits, lit_head_none p r h]

theorem not_ciEq_of_ws {c q : Char} (hq : isWhiteSpace q = false) (hc : isWhiteSpace c = true) :
    ¬ ciEq c q := by
  intro h
  rw [ciEq_whiteSpace h, hq] at hc
  cases hc

theorem not_ciEq_quote {c : Char} (hc : notQuote c = true) : ¬ ciEq c '"' := by
  intro h
  rw [quote_of_ciEq c h] at hc
  cases hc

theorem runItems_opt_guard (q : Char) (p : Str) (q2 : Char) (p2 : Str) (is : List Item) (c : Char)
    (r : Str) (h1 : ¬ ciEq c q) (h2 : ¬ ciEq c q2) :
    runItems (Item.opt (q :: p) :: ((q2 :: p2).map Item.chr ++ is)) (c :: r) = [] := by
  rw [runItems]
  simp only [runItem, lit_head_none p r h1, List.nil_append, List.flatMap_cons, List.flatMap_nil,
    List.append_nil]
  rw [runItems_lits_guard q2 p2 is c r h2]
  rfl

theorem lit_single {q : Char} {s m r : Str} (h : lit [q] s = some (m, r)) :
    ∃ c, s = c :: r ∧ ciEq c q := by
  obtain ⟨hs, hm⟩ := lit_some h
  cases hm with
  | cons hc ht =>
    cases ht
    exact ⟨_, hs, hc⟩

theorem cssItems_eq : cssItems
    = "<link".toList.map Item.chr ++ (Item.plus isWhiteSpace
      :: ("rel=\"stylesheet\"".toList.map Item.chr ++ (Item.plus isWhiteSpace
      :: ("href=\"".toList.map Item.chr ++ (Item.group notQuote
      :: ("\"".toList.map Item.chr ++ (Item.star isWhiteSpace
      :: Item.opt "/".toList :: (">".toList.map Item.chr ++ [])))))))) := by
  rfl

/-- The deterministic matcher for the stylesheet pattern returns what the
backtracking matcher returns, on every input. -/
theorem exec_cssItems (s : Str) : exec cssItems s = cssRegex s := by
  unfold exec
  change Option.map _ (first cssItems s) = _
  rw [cssItems_eq, first_lits]
  unfold cssRegex
  cases h1 : lit "<link".toList s with
  | none => rfl
  | some v1 =>
    obtain ⟨m1, r1⟩ := v1
    simp only [bind, Option.bind]
    rw [first_plus isWhiteSpace (List.map Item.chr "rel=\"stylesheet\"".toList ++ _) _ (fun c r hc =>
      runItems_lits_guard 'r' "el=\"stylesheet\"".toList _ c r (not_ciEq_of_ws (by decide) hc))]
    cases h2 : many1 isWhiteSpace r1 with
    | none => rfl
    | some v2 =>
      obtain ⟨w1, r2⟩ := v2
      simp only []
      rw [first_lits]
      cases h3 : lit "rel=\"stylesheet\"".toList r2 with
      | none => rfl
      | some v3 =>
        obtain ⟨m2, r3⟩ := v3
        simp only []
        rw [first_plus isWhiteSpace (List.map Item.chr "href=\"".toList ++ _) _ (fun c r hc =>
          runItems_lits_guard 'h' "ref=\"".toList _ c r (not_ciEq_of_ws (by decide) hc))]
        cases h4 : many1 isWhiteSpace r3 with
        | none => rfl
        | some v4 =>
          obtain ⟨w2, r4⟩ := v4
          simp only []
          rw [first_lits]
          cases h5 : lit "href=\"".toList r4 with
          | none => rfl
          | some v5 =>
            obtain ⟨m3, r5⟩ := v5
            simp only []
            rw [first_group notQuote (List.map Item.chr "\"".toList ++ _) _ (fun c r hc =>
              runItems_lits_guard '"' [] _ c r (not_ciEq_quote hc))]
            cases h6 : many1 notQuote r5 with
            | none => rfl
            | some v6 =>
              obtain ⟨g1, r6⟩ := v6
              simp only []
              rw [first_lits]
              cases h7 : lit "\"".toList r6 with
              | none => rfl
              | some v7 =>
                obtain ⟨m4, r7⟩ := v7
                simp only []
                rw [first_star isWhiteSpace
                  (Item.opt "/".toList :: (List.map Item.chr ">".toList ++ [])) _
                  (fun c r hc => runItems_opt_guard '/' [] '>' [] [] c r
                    (not_ciEq_of_ws (by decide) hc) (not_ciEq_of_ws (by decide) hc))]
                rw [first_opt "/".toList (List.map Item.chr ">".toList ++ []) _ (fun m r hl => by
                  obtain ⟨c, hs, hc⟩ := lit_single hl
                  rw [hs]
                  have hc2 := ciEq_symbol (by decide) hc
                  subst hc2
                  exact runItems_lits_guard '>' [] [] '/' r (by unfold ciEq; decide))]
                rw [first_lits]
                cases h8 : lit ">".toList (optLit "/".toList (many isWhiteSpace r7).2).2 with
                | none => rfl
                | some v8 =>
                  obtain ⟨m6, r8⟩ := v8
                  simp [first_nil, List.append_assoc]

theorem jsItems_eq : jsItems
    = "<script".toList.map Item.chr ++ (Item.plus isWhiteSpace
      :: ("src=\"".toList.map Item.chr ++ (Item.group notQuote
      :: ("\"".toList.map Item.chr ++ (Item.star isWhiteSpace
      :: (">".toList.map Item.chr ++ [Item.opt "</script>".toList])))))) := by
  rfl

/-- The deterministic matcher for the script pattern returns what the
backtracking matcher returns, on every input. -/
theorem exec_jsItems (s : Str) : exec jsItems s = jsRegex s := by
  unfold exec
  change Option.map _ (first jsItems s) = _
  rw [jsItems_eq, first_lits]
  unfold jsRegex jsOpenTag
  cases h1 : lit "<script".toList s with
  | none => rfl
  | some v1 =>
    obtain ⟨m1, r1⟩ := v1
    simp only [bind, Option.bind]
    rw [first_plus isWhiteSpace (List.map Item.chr "src=\"".toList ++ _) _ (fun c r hc =>
      runItems_lits_guard 's' "rc=\"".toList _ c r (not_ciEq_of_ws (by decide) hc))]
    cases h2 : many1 isWhiteSpace r1 with
    | none => rfl
    | some v2 =>
      obtain ⟨w1, r2⟩ := v2
      simp only []
      rw [first_lits]
      cases h3 : lit "src=\"".toList r2 with
      | none => rfl
      | some v3 =>
        obtain ⟨m2, r3⟩ := v3
        simp only []
        rw [first_group notQuote (List.map Item.chr "\"".toList ++ _) _ (fun c r hc =>
          runItems_lits_guard '"' [] _ c r (not_ciEq_quote hc))]
        cases h4 : many1 notQuote r3 with
        | none => rfl
        | some v4 =>
          obtain ⟨g1, r4⟩ := v4
          simp only []
          rw [first_lits]
          cases h5 : lit "\"".toList r4 with
          | none => rfl
          | some v5 =>
            obtain ⟨m3, r5⟩ := v5
            simp only []
            rw [first_star isWhiteSpace
              (List.map Item.chr ">".toList ++ [Item.opt "</script>".toList]) _
              (fun c r hc => runItems_lits_guard '>' [] _ c r (not_ciEq_of_ws (by decide) hc))]
            rw [first_lits]
            cases h6 : lit ">".toList (many isWhiteSpace r5).2 with
            | none => rfl
            | some v6 =>
              obtain ⟨m4, r6⟩ := v6
              simp [first_opt_last, List.append_assoc]

/-! ## Texts in which no opening tag can start -/

theorem coldText_tail {K : Nat} {c : Char} {x : Str} (h : coldText K (c :: x) = true) :
    coldText K x = true := by
  cases x with
  | nil => rfl
  | cons d r =>
    simp only [coldText, Bool.and_eq_true] at h
    exact h.2

theorem coldText_append {K : Nat} : ∀ {x y : Str}, coldText K x = true → coldText K y = true →
    coldText K (x ++ y) = true := by
  intro x
  induction x with
  | nil => intro y _ hy; simpa using hy
  | cons c x ih =>
    intro y hx hy
    have ht := ih (coldText_tail hx) hy
    cases x with
    | nil =>
      cases y with
      | nil => simpa using hx
      | cons d r =>
        simp only [coldText, bne_iff_ne, ne_eq] at hx
        simp only [List.cons_append, List.nil_append, coldText, Bool.and_eq_true, Bool.or_eq_true,
          bne_iff_ne, ne_eq]
        exact ⟨Or.inl hx, hy⟩
    | cons d r =>
      simp only [coldText, Bool.and_eq_true] at hx
      simp only [List.cons_append, coldText, Bool.and_eq_true]
      exact ⟨hx.1, by simpa using ht⟩

theorem coldText_of_no_lt {K : Nat} : ∀ {x : Str}, '<' ∉ x → coldText K x = true := by
  intro x
  induction x with
  | nil => intro _; rfl
  | cons c x ih =>
    intro h
    simp only [List.mem_cons, not_or] at h
    have ht := ih h.2
    cases x with
    | nil => simp only [coldText, bne_iff_ne, ne_eq]; exact fun e => h.1 e.symm
    | cons d r =>
      simp only [coldText, Bool.and_eq_true, Bool.or_eq_true, bne_iff_ne, ne_eq]
      exact ⟨Or.inl (fun e => h.1 e.symm), ht⟩

theorem coldText_suffix {K : Nat} : ∀ {a b : Str}, coldText K (a ++ b) = true →
    coldText K b = true := by
  intro a
  induction a with
  | nil => intro b h; simpa using h
  | cons c a ih => intro b h; exact ih (coldText_tail h)

theorem coldText_start {K : Nat} {x a b z rest : Str} {k : Char} (h : coldText K x = true)
    (hx : x = a ++ b) (hb : b ≠ []) (hz : b ++ z = '<' :: k :: rest) :
    canonicalize k.toNat ≠ K := by
  subst hx
  have hb' := coldText_suffix h
  cases b with
  | nil => exact absurd rfl hb
  | cons c b =>
    simp only [List.cons_append, List.cons.injEq] at hz
    obtain ⟨hc, hz⟩ := hz
    subst hc
    cases b with
    | nil => simp [coldText] at hb'
    | cons d r =>
      simp only [List.cons_append, List.cons.injEq] at hz
      obtain ⟨hd, -⟩ := hz
      subst hd
      simp only [coldText, Bool.and_eq_true, Bool.or_eq_true, bne_iff_ne, ne_eq] at hb'
      rcases hb'.1 with h1 | h1
      · exact absurd trivial h1
      · exact h1

theorem block_cold_of (op : Str → Option (Str × Str × Str)) (K : Nat) (pre' post : Str)
    (hshape : ∀ s u p z, op s = some (u, p, z) →
      ∃ k rest, s = '<' :: k :: rest ∧ canonicalize k.toNat = K)
    (hpre : coldText K pre' = true) (hpost : coldText K post = true)
    (hstart : ∀ x, op ('<' :: pre' ++ x) = none) (c : Str) (hc : '<' ∉ c) (a b z : Str)
    (hab : ('<' :: pre') ++ c ++ post = a ++ b) (hb : b ≠ []) : op (b ++ z) = none := by
  cases a with
  | nil =>
    simp only [List.nil_append] at hab
    rw [← hab]
    have := hstart (c ++ post ++ z)
    simpa [List.append_assoc] using this
  | cons y a =>
    simp only [List.cons_append, List.cons.injEq] at hab
    have hcold : coldText K (pre' ++ c ++ post) = true :=
      coldText_append (coldText_append hpre (coldText_of_no_lt hc)) hpost
    cases hop : op (b ++ z) with
    | none => rfl
    | some v =>
      exfalso
      obtain ⟨u, p, z'⟩ := v
      obtain ⟨k, rest, hk, hK⟩ := hshape _ _ _ _ hop
      exact coldText_start hcold hab.2 hb hk hK

/-! ## Unfolding the scans -/

section Unfold

variable (re : Str → Option (Str × Str × Str)) (fuel : Nat)

theorem matchAllFrom_nil (h : re [] = none) : matchAllFrom re (fuel + 1) [] = [] := by
  simp [matchAllFrom, h]

theorem matchAllFrom_cons (c : Char) (cs : Str) (h : re (c :: cs) = none) :
    matchAllFrom re (fuel + 1) (c :: cs) = matchAllFrom re fuel cs := by
  simp [matchAllFrom, h]

theorem matchAllFrom_some (s : Str) (c : Char) (m p r : Str) (h : re s = some (c :: m, p, r)) :
    matchAllFrom re (fuel + 1) s = (c :: m, p) :: matchAllFrom re fuel r := by
  simp [matchAllFrom, h]

theorem matchAllFrom_empty_nil (g r : Str) (h : re [] = some ([], g, r)) :
    matchAllFrom re (fuel + 1) [] = [([], g)] := by
  simp [matchAllFrom, h]

theorem matchAllFrom_empty_cons (c : Char) (cs g r : Str) (h : re (c :: cs) = some ([], g, r)) :
    matchAllFrom re (fuel + 1) (c :: cs) = ([], g) :: matchAllFrom re fuel cs := by
  simp [matchAllFrom, h]

theorem segmentsFrom_nil (h : re [] = none) : segmentsFrom re (fuel + 1) [] = [] := by
  simp [segmentsFrom, h]

theorem segmentsFrom_cons (c : Char) (cs : Str) (h : re (c :: cs) = none) :
    segmentsFrom re (fuel + 1) (c :: cs) = Seg.gap c :: segmentsFrom re fuel cs := by
  simp [segmentsFrom, h]

theorem segmentsFrom_some (s : Str) (c : Char) (m p r : Str) (h : re s = some (c :: m, p, r)) :
    segmentsFrom re (fuel + 1) s = Seg.tag (c :: m) p :: segmentsFrom re fuel r := by
  simp [segmentsFrom, h]

theorem matchAllFrom_eq_segmentsFrom : ∀ (fuel : Nat) (s : Str),
    matchAllFrom re fuel s = (segmentsFrom re fuel s).filterMap Seg.toMatch := by
  intro fuel
  induction fuel with
  | zero =>
    intro s
    induction s with
    | nil => rfl
    | cons c cs _ => simp [matchAllFrom, segmentsFrom, Seg.toMatch]
  | succ fuel ih =>
    intro s
    cases hre : re s with
    | none =>
      cases s with
      | nil => rw [matchAllFrom_nil re fuel hre, segmentsFrom_nil re fuel hre]; rfl
      | cons c cs =>
        rw [matchAllFrom_cons re fuel c cs hre, segmentsFrom_cons re fuel c cs hre, ih cs]
        rfl
    | some v =>
      obtain ⟨t, p, r⟩ := v
      cases t with
      | nil =>
        cases s with
        | nil => simp [matchAllFrom, segmentsFrom, hre, Seg.toMatch]
        | cons c cs => simp [matchAllFrom, segmentsFrom, hre, Seg.toMatch, ih cs]
      | cons c t =>
        rw [matchAllFrom_some re fuel s c t p r hre, segmentsFrom_some re fuel s c t p r hre, ih r]
        rfl

/-- The matches `matchAll` lists are the matches of the scan that positional
replacement is defined on, in the same order. -/
theorem matchAll_eq_segments (s : Str) :
    matchAll re s = (segments re s).filterMap Seg.toMatch :=
  matchAllFrom_eq_segmentsFrom re _ s

end Unfold

/-! ## What the proofs use of a pattern -/

section Laws

variable {re op : Str → Option (Str × Str × Str)} {pre post : Str}
variable (L : TagLaws re op pre post) (api : PathApi) (fs : Fs) (baseDir : Str)

include L

theorem TagLaws.re_ne_nil {s t p r} (h : re s = some (t, p, r)) : t ≠ [] := by
  obtain ⟨u, o, hu, ho⟩ := L.re_open h
  obtain ⟨-, k, u', hk, -⟩ := L.op_shape ho
  subst hu; subst hk; simp

omit L in
theorem Cold.nil (s : Str) : Cold op api fs baseDir [] s := by
  intro a b hab hb
  simp at hab
  exact absurd hab.2 hb

omit L in
theorem Cold.append {R x s : Str} (h1 : Cold op api fs baseDir R (x ++ s))
    (h2 : Cold op api fs baseDir x s) : Cold op api fs baseDir (R ++ x) s := by
  intro a b hab hb u p z hop hp
  rcases List.append_eq_append_iff.1 hab with ⟨a', ha, hx⟩ | ⟨c', hR, hb'⟩
  · exact h2 a' b hx hb u p z hop hp
  · by_cases hc : c' = []
    · subst hc
      simp at hb'
      subst hb'
      exact h2 [] _ rfl hb u p z hop hp
    · subst hb'
      rw [List.append_assoc] at hop
      exact h1 a c' hR hc u p z hop hp

theorem Cold.gap {R : Str} {c : Char} {cs : Str} (h : Cold op api fs baseDir R (c :: cs))
    (hre : re (c :: cs) = none) : Cold op api fs baseDir (R ++ [c]) cs := by
  have h' : Cold op api fs baseDir R ([c] ++ cs) := by simpa using h
  refine Cold.append api fs baseDir h' ?_
  intro a b hab hb u p z hop hp
  have hb' : b = [c] := by
    cases a with
    | nil => simpa using hab.symm
    | cons y a =>
      simp at hab
      exact absurd hab.2.2 hb
  subst hb'
  obtain ⟨t, r, ht⟩ := L.op_re hop
  simp at ht
  rw [hre] at ht
  cases ht

theorem Cold.kept {R s t p r : Str} (h : Cold op api fs baseDir R s)
    (hre : re s = some (t, p, r)) (hp : '<' ∉ p) (hl : lookup api fs baseDir p = none) :
    Cold op api fs baseDir (R ++ t) r := by
  have hs := L.re_split hre
  subst hs
  refine Cold.append api fs baseDir h ?_
  intro a b hab hb u1 p1 z1 hop hp1
  cases a with
  | nil =>
    simp at hab
    subst hab
    obtain ⟨u, o, -, ho⟩ := L.re_open hre
    rw [ho] at hop
    cases hop
    exact hl
  | cons y a =>
    exfalso
    obtain ⟨hsplit, k, u', hk, hk2, -⟩ := L.op_shape hop
    subst hk
    cases b with
    | nil => exact hb rfl
    | cons x b =>
      simp at hsplit
      obtain ⟨hx, hrest⟩ := hsplit
      subst hx
      obtain ⟨b', hb'⟩ := L.re_inner hre hp (y :: a) b hab (by simp)
      subst hb'
      simp at hrest
      exact hk2 hrest.1.symm

theorem Cold.block {R s t p r c : Str} (h : Cold op api fs baseDir R s)
    (hre : re s = some (t, p, r)) (hc : '<' ∉ c) :
    Cold op api fs baseDir (R ++ (pre ++ c ++ post)) r := by
  have hs := L.re_split hre
  subst hs
  intro a b hab hb u1 p1 z1 hop hp1
  rcases List.append_eq_append_iff.1 hab with ⟨a', ha, hx⟩ | ⟨c', hR, hb'⟩
  · rw [L.block_cold c hc a' b r hx hb] at hop
    cases hop
  · by_cases hc' : c' = []
    · subst hc'
      simp only [List.nil_append] at hb'
      rw [L.block_cold c hc [] b r (by simp [hb']) hb] at hop
      cases hop
    · subst hb'
      obtain ⟨hsplit, k, u', hk, -, hno⟩ := L.op_shape hop
      obtain ⟨k0, pre', hpre, -⟩ := L.pre_head
      have hpf : u1 <+: c' ++ '<' :: (k0 :: pre' ++ c ++ post ++ r) := by
        refine ⟨z1, ?_⟩
        rw [← hsplit, hpre]
        simp
      rw [hk] at hpf
      have hpf2 := prefix_of_prefix_append_lt (k :: u') c' _ hc' (hno hp1) hpf
      rw [← hk] at hpf2
      obtain ⟨w, hw⟩ := hpf2
      have hop2 := L.op_ext (w ++ (t ++ r)) hop
      rw [← List.append_assoc, hw] at hop2
      exact h a c' hR hc' u1 p1 _ hop2 hp1

omit L in
theorem Benign.tail {m : Str × Str} {ms : List (Str × Str)}
    (h : Benign api fs baseDir (m :: ms)) : Benign api fs baseDir ms :=
  fun x hx => h x (List.mem_cons_of_mem _ hx)

theorem inline_aux :
    ∀ (fuel : Nat) (R s : Str), s.length < fuel → Cold op api fs baseDir R s →
      Benign api fs baseDir (matchAllFrom re fuel s) →
      (matchAllFrom re fuel s).foldl (inlineStep pre post api fs baseDir) (R ++ s)
          = R ++ (segmentsFrom re fuel s).flatMap (render pre post api fs baseDir)
        ∧ Cold op api fs baseDir
            (R ++ (segmentsFrom re fuel s).flatMap (render pre post api fs baseDir)) [] := by
  intro fuel
  induction fuel with
  | zero => intro R s h; exact absurd h (Nat.not_lt_zero _)
  | succ fuel ih =>
    intro R s hlen hcold hben
    cases hre : re s with
    | none =>
      cases s with
      | nil =>
        rw [matchAllFrom_nil re fuel hre, segmentsFrom_nil re fuel hre]
        simpa using hcold
      | cons c cs =>
        rw [matchAllFrom_cons re fuel c cs hre] at hben ⊢
        rw [segmentsFrom_cons re fuel c cs hre]
        have hlen' : cs.length < fuel := by simpa using hlen
        have := ih (R ++ [c]) cs hlen' (Cold.gap L api fs baseDir hcold hre) hben
        simpa [List.flatMap_cons, render] using this
    | some v =>
      obtain ⟨t, p, r⟩ := v
      have hs := L.re_split hre
      cases t with
      | nil => exact absurd rfl (L.re_ne_nil hre)
      | cons c m =>
        rw [matchAllFrom_some re fuel s c m p r hre] at hben ⊢
        rw [segmentsFrom_some re fuel s c m p r hre]
        have hlen' : r.length < fuel := by
          rw [hs] at hlen
          simp at hlen
          omega
        have hhead := hben (c :: m, p) (List.mem_cons_self _ _)
        have hp : '<' ∉ p := hhead.1
        cases hl : lookup api fs baseDir p with
        | none =>
          have := ih (R ++ (c :: m)) r hlen' (Cold.kept L api fs baseDir hcold hre hp hl)
            (Benign.tail api fs baseDir hben)
          rw [List.foldl_cons]
          simp only [inlineStep, hl, List.flatMap_cons, render]
          rw [hs]
          simpa [List.append_assoc] using this
        | some content =>
          obtain ⟨hc1, hc2⟩ := hhead.2 content hl
          have hno : ∀ a b, R = a ++ b → b ≠ [] → ¬ (c :: m) <+: b ++ ((c :: m) ++ r) := by
            intro a b hab hb hpf
            obtain ⟨u, o, hu, ho⟩ := L.re_open hre
            have hpu : u <+: b ++ ((c :: m) ++ r) :=
              List.IsPrefix.trans ⟨o, hu.symm⟩ hpf
            obtain ⟨z', hz'⟩ := hpu
            have hop := L.op_ext z' ho
            rw [hz', ← hs] at hop
            have := hcold a b hab hb u p z' hop hp
            rw [hl] at this
            cases this
          have hd : '$' ∉ pre ++ content ++ post := by
            simp only [List.mem_append, not_or]
            exact ⟨⟨L.no_dollar.1, hc2⟩, L.no_dollar.2⟩
          have := ih (R ++ (pre ++ content ++ post)) r hlen'
            (Cold.block L api fs baseDir hcold hre hc1) (Benign.tail api fs baseDir hben)
          rw [List.foldl_cons]
          simp only [inlineStep, hl, List.flatMap_cons, render]
          rw [hs, jsReplace_at R (c :: m) r _ (by simp) hd hno]
          simpa [List.append_assoc] using this

end Laws

/-! ## The scan of a text -/

section Scan

variable {re op : Str → Option (Str × Str × Str)} {pre post : Str}
variable (L : TagLaws re op pre post)

include L

theorem TagLaws.re_nil : re [] = none := by
  cases h : re [] with
  | none => rfl
  | some v =>
    obtain ⟨t, p, r⟩ := v
    have h1 := L.re_split h
    have h2 := L.re_ne_nil h
    cases t with
    | nil => exact absurd rfl h2
    | cons c t => simp at h1

theorem TagLaws.rest_length {s t p r : Str} (h : re s = some (t, p, r)) : r.length < s.length := by
  have h1 := L.re_split h
  have h2 := L.re_ne_nil h
  cases t with
  | nil => exact absurd rfl h2
  | cons c t => rw [h1]; simp; omega

theorem segmentsFrom_fuel : ∀ (f1 f2 : Nat) (s : Str), s.length < f1 → s.length < f2 →
    segmentsFrom re f1 s = segmentsFrom re f2 s := by
  intro f1
  induction f1 with
  | zero => intro f2 s h; exact absurd h (Nat.not_lt_zero _)
  | succ f1 ih =>
    intro f2 s h1 h2
    cases f2 with
    | zero => exact absurd h2 (Nat.not_lt_zero _)
    | succ f2 =>
      cases hre : re s with
      | none =>
        cases s with
        | nil => rw [segmentsFrom_nil re f1 hre, segmentsFrom_nil re f2 hre]
        | cons c cs =>
          rw [segmentsFrom_cons re f1 c cs hre, segmentsFrom_cons re f2 c cs hre,
            ih f2 cs (by simpa using h1) (by simpa using h2)]
      | some v =>
        obtain ⟨t, p, r⟩ := v
        cases t with
        | nil => exact absurd rfl (L.re_ne_nil hre)
        | cons c t =>
          have hr := L.rest_length hre
          rw [segmentsFrom_some re f1 s c t p r hre, segmentsFrom_some re f2 s c t p r hre,
            ih f2 r (by omega) (by omega)]

theorem matchAllFrom_fuel : ∀ (f1 f2 : Nat) (s : Str), s.length < f1 → s.length < f2 →
    matchAllFrom re f1 s = matchAllFrom re f2 s := by
  intro f1
  induction f1 with
  | zero => intro f2 s h; exact absurd h (Nat.not_lt_zero _)
  | succ f1 ih =>
    intro f2 s h1 h2
    cases f2 with
    | zero => exact absurd h2 (Nat.not_lt_zero _)
    | succ f2 =>
      cases hre : re s with
      | none =>
        cases s with
        | nil => rw [matchAllFrom_nil re f1 hre, matchAllFrom_nil re f2 hre]
        | cons c cs =>
          rw [matchAllFrom_cons re f1 c cs hre, matchAllFrom_cons re f2 c cs hre,
            ih f2 cs (by simpa using h1) (by simpa using h2)]
      | some v =>
        obtain ⟨t, p, r⟩ := v
        cases t with
        | nil => exact absurd rfl (L.re_ne_nil hre)
        | cons c t =>
          have hr := L.rest_length hre
          rw [matchAllFrom_some re f1 s c t p r hre, matchAllFrom_some re f2 s c t p r hre,
            ih f2 r (by omega) (by omega)]

theorem segments_nil : segments re [] = [] :=
  segmentsFrom_nil re _ L.re_nil

omit L in
theorem segments_cons (c : Char) (cs : Str) (h : re (c :: cs) = none) :
    segments re (c :: cs) = Seg.gap c :: segments re cs :=
  segmentsFrom_cons re _ c cs h

theorem segments_some {s t p r : Str} (h : re s = some (t, p, r)) :
    segments re s = Seg.tag t p :: segments re r := by
  have hr := L.rest_length h
  cases t with
  | nil => exact absurd rfl (L.re_ne_nil h)
  | cons c t =>
    unfold segments
    rw [segmentsFrom_some re _ s c t p r h]
    rw [segmentsFrom_fuel L s.length (r.length + 1) r hr (Nat.lt_succ_self _)]

omit L in
theorem matchAll_cons (c : Char) (cs : Str) (h : re (c :: cs) = none) :
    matchAll re (c :: cs) = matchAll re cs :=
  matchAllFrom_cons re _ c cs h

theorem matchAll_some {s t p r : Str} (h : re s = some (t, p, r)) :
    matchAll re s = (t, p) :: matchAll re r := by
  have hr := L.rest_length h
  cases t with
  | nil => exact absurd rfl (L.re_ne_nil h)
  | cons c t =>
    unfold matchAll
    rw [matchAllFrom_some re _ s c t p r h]
    rw [matchAllFrom_fuel L s.length (r.length + 1) r hr (Nat.lt_succ_self _)]

theorem segments_text : ∀ (n : Nat) (s : Str), s.length ≤ n →
    (segments re s).flatMap Seg.text = s := by
  intro n
  induction n with
  | zero =>
    intro s h
    have : s = [] := List.length_eq_zero.1 (Nat.le_zero.1 h)
    subst this
    rw [segments_nil L]
    rfl
  | succ n ih =>
    intro s h
    cases hre : re s with
    | none =>
      cases s with
      | nil => rw [segments_nil L]; rfl
      | cons c cs =>
        rw [segments_cons c cs hre, List.flatMap_cons, ih cs (by simpa using h)]
        rfl
    | some v =>
      obtain ⟨t, p, r⟩ := v
      have hr := L.rest_length hre
      rw [segments_some L hre, List.flatMap_cons, ih r (by omega)]
      exact (L.re_split hre).symm

theorem mem_segments : ∀ (n : Nat) (s : Str), s.length ≤ n → ∀ t p,
    Seg.tag t p ∈ segments re s → (t, p) ∈ matchAll re s ∧ ∃ s' r, re s' = some (t, p, r) := by
  intro n
  induction n with
  | zero =>
    intro s h t p hm
    have : s = [] := List.length_eq_zero.1 (Nat.le_zero.1 h)
    subst this
    rw [segments_nil L] at hm
    cases hm
  | succ n ih =>
    intro s h t p hm
    cases hre : re s with
    | none =>
      cases s with
      | nil => rw [segments_nil L] at hm; cases hm
      | cons c cs =>
        rw [segments_cons c cs hre] at hm
        rw [matchAll_cons c cs hre]
        simp only [List.mem_cons] at hm
        rcases hm with hm | hm
        · cases hm
        · exact ih cs (by simpa using h) t p hm
    | some v =>
      obtain ⟨t', p', r⟩ := v
      have hr := L.rest_length hre
      rw [segments_some L hre] at hm
      rw [matchAll_some L hre]
      simp only [List.mem_cons] at hm
      rcases hm with hm | hm
      · cases hm
        exact ⟨List.mem_cons_self _ _, s, r, hre⟩
      · obtain ⟨h1, h2⟩ := ih r (by omega) t p hm
        exact ⟨List.mem_cons_of_mem _ h1, h2⟩

omit L in
/-- A run of characters at none of which the pattern matches is a run of gaps. -/
theorem segments_gap_run (Y : Str) : ∀ T : Str,
    (∀ a b, T = a ++ b → b ≠ [] → re (b ++ Y) = none) →
    segments re (T ++ Y) = T.map Seg.gap ++ segments re Y := by
  intro T
  induction T with
  | nil => intro _; rfl
  | cons c T ih =>
    intro h
    have h0 := h [] (c :: T) rfl (by simp)
    rw [List.cons_append] at h0 ⊢
    rw [segments_cons c (T ++ Y) h0, ih (fun a b hab hb => h (c :: a) b (by rw [hab]; rfl) hb)]
    rfl

/-- The scan of a text does not run over a `<` that is not followed by `/`, as
long as the paths of its matches hold no `<`. -/
theorem segments_split (T Y : Str) (hT : ∃ k T', T = '<' :: k :: T' ∧ k ≠ '/') :
    ∀ (n : Nat) (X : Str), X.length ≤ n → (∀ m ∈ matchAll re (X ++ (T ++ Y)), '<' ∉ m.2) →
      ∃ A, segments re (X ++ (T ++ Y)) = A ++ segments re (T ++ Y) ∧ A.flatMap Seg.text = X := by
  intro n
  induction n with
  | zero =>
    intro X h _
    have : X = [] := List.length_eq_zero.1 (Nat.le_zero.1 h)
    subst this
    exact ⟨[], rfl, rfl⟩
  | succ n ih =>
    intro X h hben
    cases X with
    | nil => exact ⟨[], rfl, rfl⟩
    | cons c X =>
      cases hre : re (c :: X ++ (T ++ Y)) with
      | none =>
        rw [List.cons_append] at hre hben
        rw [matchAll_cons c _ hre] at hben
        obtain ⟨A, hA, hA2⟩ := ih X (by simpa using h) hben
        refine ⟨Seg.gap c :: A, ?_, ?_⟩
        · rw [List.cons_append, segments_cons c _ hre, hA]; rfl
        · rw [List.flatMap_cons, hA2]; rfl
      | some v =>
        obtain ⟨J, p, r⟩ := v
        rw [matchAll_some L hre] at hben
        have hp : '<' ∉ p := hben (J, p) (List.mem_cons_self _ _)
        have hs := L.re_split hre
        have hJ := L.re_ne_nil hre
        have hkey : ∃ X', c :: X = J ++ X' ∧ r = X' ++ (T ++ Y) := by
          rcases List.append_eq_append_iff.1 hs with ⟨a', h1, h2⟩ | ⟨c', h1, h2⟩
          · -- the match runs over the end of `X`
            cases a' with
            | nil =>
              refine ⟨[], ?_, ?_⟩
              · simpa using h1.symm
              · simpa using h2.symm
            | cons x a' =>
              exfalso
              obtain ⟨k, T', hk, hk2⟩ := hT
              rw [hk] at h2
              simp only [List.cons_append, List.cons.injEq] at h2
              obtain ⟨hx, h3⟩ := h2
              subst hx
              obtain ⟨b', hb'⟩ := L.re_inner hre hp (c :: X) a' h1 (by simp)
              rw [hb'] at h3
              simp only [List.cons_append, List.cons.injEq] at h3
              exact hk2 h3.1
          · exact ⟨c', h1, h2⟩
        obtain ⟨X', hX1, hX2⟩ := hkey
        have hlen : X'.length ≤ n := by
          have := congrArg List.length hX1
          simp at this h
          have hJ' : 0 < J.length := List.length_pos.2 hJ
          omega
        subst hX2
        obtain ⟨A, hA, hA2⟩ := ih X' hlen (fun m hm => hben m (List.mem_cons_of_mem _ hm))
        refine ⟨Seg.tag J p :: A, ?_, ?_⟩
        · rw [segments_some L hre, hA]; rfl
        · rw [List.flatMap_cons, hA2, hX1]; rfl

end Scan

/-! ## The loop and positional replacement -/

theorem benign_iff (api : PathApi) (fs : Fs) (baseDir : Str) (ms : List (Str × Str)) :
    benign api fs baseDir ms = true ↔ Benign api fs baseDir ms := by
  unfold benign Benign
  rw [List.all_eq_true]
  constructor
  · intro h m hm
    have := h m hm
    simp only [Bool.and_eq_true, Bool.not_eq_true', List.contains_eq_any_beq, List.any_eq_false,
      beq_iff_eq] at this
    refine ⟨fun hmem => this.1 _ hmem rfl, ?_⟩
    intro c hc
    rw [hc] at this
    simp only [Bool.and_eq_true, Bool.not_eq_true', List.any_eq_false, beq_iff_eq] at this
    exact ⟨fun hmem => this.2.1 _ hmem rfl, fun hmem => this.2.2 _ hmem rfl⟩
  · intro h m hm
    obtain ⟨h1, h2⟩ := h m hm
    simp only [Bool.and_eq_true, Bool.not_eq_true', List.contains_eq_any_beq, List.any_eq_false,
      beq_iff_eq]
    refine ⟨fun x hx e => h1 (e ▸ hx), ?_⟩
    cases hl : lookup api fs baseDir m.2 with
    | none => rfl
    | some c =>
      obtain ⟨h3, h4⟩ := h2 c hl
      simp only [Bool.and_eq_true, Bool.not_eq_true', List.any_eq_false, beq_iff_eq]
      exact ⟨fun x hx e => h3 (e ▸ hx), fun x hx e => h4 (e ▸ hx)⟩

theorem pathsClean_iff (ms : List (Str × Str)) :
    pathsClean ms = true ↔ ∀ m ∈ ms, '<' ∉ m.2 := by
  unfold pathsClean
  rw [List.all_eq_true]
  constructor
  · intro h m hm hmem
    have := h m hm
    simp only [Bool.not_eq_true', List.contains_eq_any_beq, List.any_eq_false, beq_iff_eq] at this
    exact this _ hmem rfl
  · intro h m hm
    simp only [Bool.not_eq_true', List.contains_eq_any_beq, List.any_eq_false, beq_iff_eq]
    exact fun x hx e => h m hm (e ▸ hx)

theorem mem_matchAllFrom (re : Str → Option (Str × Str × Str)) :
    ∀ (fuel : Nat) (s : Str) (m : Str × Str), m ∈ matchAllFrom re fuel s →
      ∃ s' r, re s' = some (m.1, m.2, r) := by
  intro fuel
  induction fuel with
  | zero => intro s m h; simp [matchAllFrom] at h
  | succ fuel ih =>
    intro s m h
    cases hre : re s with
    | none =>
      cases s with
      | nil => rw [matchAllFrom_nil re fuel hre] at h; simp at h
      | cons c cs => rw [matchAllFrom_cons re fuel c cs hre] at h; exact ih cs m h
    | some v =>
      obtain ⟨t, p, r⟩ := v
      cases t with
      | nil =>
        cases s with
        | nil =>
          rw [matchAllFrom_empty_nil re fuel p r hre] at h
          simp only [List.mem_singleton] at h
          exact ⟨[], r, by rw [hre, h]⟩
        | cons c cs =>
          rw [matchAllFrom_empty_cons re fuel c cs p r hre] at h
          simp only [List.mem_cons] at h
          rcases h with h | h
          · exact ⟨c :: cs, r, by rw [hre, h]⟩
          · exact ih cs m h
      | cons c t =>
        rw [matchAllFrom_some re fuel s c t p r hre] at h
        simp only [List.mem_cons] at h
        rcases h with h | h
        · exact ⟨s, r, by rw [hre, h]⟩
        · exact ih r m h

theorem flatMap_render_gap (pre post : Str) (api : PathApi) (fs : Fs) (baseDir : Str) :
    ∀ t : Str, (t.map Seg.gap).flatMap (render pre post api fs baseDir) = t := by
  intro t
  induction t with
  | nil => rfl
  | cons c t ih => rw [List.map_cons, List.flatMap_cons, ih]; rfl

section Main

variable {re op : Str → Option (Str × Str × Str)} {pre post : Str}
variable (L : TagLaws re op pre post) (api : PathApi) (fs : Fs) (baseDir : Str)

include L

theorem inlineWith_positional (html : Str)
    (h : benign api fs baseDir (matchAll re html) = true) :
    inlineWith re pre post api fs html baseDir = positional re pre post api fs html baseDir
      ∧ Cold op api fs baseDir (inlineWith re pre post api fs html baseDir) [] := by
  have := inline_aux L api fs baseDir (html.length + 1) [] html (Nat.lt_succ_self _)
    (Cold.nil api fs baseDir html) ((benign_iff api fs baseDir _).1 h)
  simp only [List.nil_append] at this
  unfold inlineWith positional matchAll segments
  rw [this.1]
  exact ⟨rfl, this.2⟩

theorem inlineWith_removes (html : Str) (h : benign api fs baseDir (matchAll re html) = true)
    (m : Str × Str) (hm : m ∈ matchAll re html) (c : Str)
    (hl : lookup api fs baseDir m.2 = some c) :
    ¬ m.1 <:+: inlineWith re pre post api fs html baseDir := by
  rintro ⟨a, b, hab⟩
  obtain ⟨s', r, hre⟩ := mem_matchAllFrom re _ _ m hm
  obtain ⟨u, o, hu, hop⟩ := L.re_open hre
  have hcold := (inlineWith_positional L api fs baseDir html h).2
  have hp := ((benign_iff api fs baseDir _).1 h m hm).1
  have hop2 := L.op_ext (o ++ b) hop
  have := hcold a (m.1 ++ b) (by rw [← hab, List.append_assoc]) (by
    have := L.re_ne_nil hre
    intro e
    simp at e
    exact this e.1) u m.2 (o ++ b) (by rw [hu]; simpa [List.append_assoc] using hop2) hp
  rw [hl] at this
  cases this

end Main

theorem positional_at {re op : Str → Option (Str × Str × Str)} {pre post : Str}
    (L : TagLaws re op pre post) (api : PathApi) (fs : Fs) (baseDir html : Str)
    (A B : List Seg) (t p : Str) (hseg : segments re html = A ++ Seg.tag t p :: B)
    (hl : lookup api fs baseDir p = none) (hb : benign api fs baseDir (matchAll re html) = true) :
    html = A.flatMap Seg.text ++ t ++ B.flatMap Seg.text ∧
      inlineWith re pre post api fs html baseDir
        = A.flatMap (render pre post api fs baseDir) ++ t
            ++ B.flatMap (render pre post api fs baseDir) := by
  constructor
  · have := segments_text L html.length html (Nat.le_refl _)
    rw [hseg] at this
    rw [← this]
    simp [List.flatMap_append, Seg.text]
  · rw [(inlineWith_positional L api fs baseDir html hb).1]
    unfold positional
    rw [hseg]
    simp [List.flatMap_append, render, hl]

/-! ## Two patterns on one text -/

section Positional

variable {re op : Str → Option (Str × Str × Str)} {pre post : Str}
variable (L : TagLaws re op pre post) (api : PathApi) (fs : Fs) (baseDir : Str)

include L

theorem TagLaws.re_none_of_op {s : Str} (h : op s = none) : re s = none := by
  cases hre : re s with
  | none => rfl
  | some v =>
    obtain ⟨t, p, r⟩ := v
    obtain ⟨u, o, -, ho⟩ := L.re_open hre
    rw [h] at ho
    cases ho

theorem positional_nil : positional re pre post api fs [] baseDir = [] := by
  unfold positional
  rw [segments_nil L]
  rfl

omit L in
theorem positional_cons (c : Char) (cs : Str) (h : re (c :: cs) = none) :
    positional re pre post api fs (c :: cs) baseDir
      = c :: positional re pre post api fs cs baseDir := by
  unfold positional
  rw [segments_cons c cs h]
  rfl

theorem positional_some {s t p r : Str} (h : re s = some (t, p, r)) :
    positional re pre post api fs s baseDir
      = render pre post api fs baseDir (Seg.tag t p) ++ positional re pre post api fs r baseDir := by
  unfold positional
  rw [segments_some L h]
  rfl

omit L in
theorem positional_gap_run (T Y : Str) (h : ∀ a b, T = a ++ b → b ≠ [] → re (b ++ Y) = none) :
    positional re pre post api fs (T ++ Y) baseDir
      = T ++ positional re pre post api fs Y baseDir := by
  unfold positional
  rw [segments_gap_run Y T h, List.flatMap_append, flatMap_render_gap]

omit L in
theorem matchAll_gap_run (Y : Str) : ∀ T : Str,
    (∀ a b, T = a ++ b → b ≠ [] → re (b ++ Y) = none) → matchAll re (T ++ Y) = matchAll re Y := by
  intro T
  induction T with
  | nil => intro _; rfl
  | cons c T ih =>
    intro h
    have h0 := h [] (c :: T) rfl (by simp)
    rw [List.cons_append] at h0 ⊢
    rw [matchAll_cons c (T ++ Y) h0, ih (fun a b hab hb => h (c :: a) b (by rw [hab]; rfl) hb)]

theorem render_head (t p : Str) {s r : Str} (h : re s = some (t, p, r)) :
    ∃ k x, render pre post api fs baseDir (Seg.tag t p) = '<' :: k :: x ∧ k ≠ '/' := by
  cases hl : lookup api fs baseDir p with
  | none =>
    obtain ⟨u, o, hu, ho⟩ := L.re_open h
    obtain ⟨-, k, u', hk, hk2, -⟩ := L.op_shape ho
    refine ⟨k, u' ++ o, ?_, hk2⟩
    simp only [render, hl]
    rw [hu, hk]
    rfl
  | some c =>
    obtain ⟨k, pre', hk, hk2⟩ := L.pre_head
    refine ⟨k, pre' ++ c ++ post, ?_, hk2⟩
    simp only [render, hl]
    rw [hk]
    simp

theorem tag_head {s t p r : Str} (h : re s = some (t, p, r)) :
    ∃ k x, t = '<' :: k :: x ∧ k ≠ '/' := by
  obtain ⟨u, o, hu, ho⟩ := L.re_open h
  obtain ⟨-, k, u', hk, hk2, -⟩ := L.op_shape ho
  exact ⟨k, u' ++ o, by rw [hu, hk]; rfl, hk2⟩

omit L in
theorem prefix_lt_iff_nil {w x : Str} (hw : '<' ∉ w) : w <+: '<' :: x ↔ w = [] := by
  constructor
  · intro h
    cases w with
    | nil => rfl
    | cons c w =>
      exfalso
      obtain ⟨y, hy⟩ := h
      simp only [List.cons_append, List.cons.injEq] at hy
      apply hw
      rw [hy.1]
      simp
  · intro h
    subst h
    exact List.nil_prefix

/-- Positional replacement keeps the characters up to the first `<`. -/
theorem positional_chunk : ∀ (n : Nat) (s : Str), s.length ≤ n → ∀ w : Str, '<' ∉ w →
    (w <+: positional re pre post api fs s baseDir ↔ w <+: s) := by
  intro n
  induction n with
  | zero =>
    intro s h w _
    have : s = [] := List.length_eq_zero.1 (Nat.le_zero.1 h)
    subst this
    rw [positional_nil L]
  | succ n ih =>
    intro s h w hw
    cases hre : re s with
    | none =>
      cases s with
      | nil => rw [positional_nil L]
      | cons c cs =>
        rw [positional_cons api fs baseDir c cs hre]
        cases w with
        | nil => simp
        | cons d w =>
          simp only [List.mem_cons, not_or] at hw
          rw [List.cons_prefix_cons, List.cons_prefix_cons, ih cs (by simpa using h) w hw.2]
    | some v =>
      obtain ⟨t, p, r⟩ := v
      rw [positional_some L api fs baseDir hre]
      obtain ⟨k, x, hk, -⟩ := render_head L api fs baseDir t p hre
      obtain ⟨k2, x2, hk2, -⟩ := tag_head L hre
      rw [L.re_split hre, hk, hk2]
      simp only [List.cons_append]
      rw [prefix_lt_iff_nil hw, prefix_lt_iff_nil hw]

/-- A closing tag that starts the text after positional replacement starts the
text before it. -/
theorem positional_close (s w : Str) (hw : '<' ∉ w)
    (h : '<' :: '/' :: w <+: positional re pre post api fs s baseDir) : '<' :: '/' :: w <+: s := by
  cases hre : re s with
  | none =>
    cases s with
    | nil =>
      rw [positional_nil L] at h
      simp at h
    | cons c cs =>
      rw [positional_cons api fs baseDir c cs hre] at h
      rw [List.cons_prefix_cons] at h ⊢
      refine ⟨h.1, ?_⟩
      have hw' : '<' ∉ '/' :: w := by
        simp only [List.mem_cons, not_or]
        exact ⟨by decide, hw⟩
      exact (positional_chunk L api fs baseDir cs.length cs (Nat.le_refl _) _ hw').1 h.2
  | some v =>
    exfalso
    obtain ⟨t, p, r⟩ := v
    rw [positional_some L api fs baseDir hre] at h
    obtain ⟨k, x, hk, hk2⟩ := render_head L api fs baseDir t p hre
    rw [hk] at h
    simp only [List.cons_append, List.cons_prefix_cons] at h
    exact hk2 h.2.1.symm

end Positional

section Cross

variable {reA opA : Str → Option (Str × Str × Str)} {preA postA : Str}
variable {reB opB : Str → Option (Str × Str × Str)} {preB postB : Str}
variable (LA : TagLaws reA opA preA postA) (LB : TagLaws reB opB preB postB)
variable (XAB : CrossLaws reA preA postA opB)
variable (api : PathApi) (fs : Fs) (baseDir : Str)

include LA LB XAB

omit LA in
/-- The other pattern matches at no position of a rendered match. -/
theorem render_cold {s t p r : Str} (hre : reA s = some (t, p, r)) (hp : '<' ∉ p)
    (hc : ∀ c, lookup api fs baseDir p = some c → '<' ∉ c) (a b Y : Str)
    (hab : render preA postA api fs baseDir (Seg.tag t p) = a ++ b) (hb : b ≠ []) :
    reB (b ++ Y) = none := by
  apply LB.re_none_of_op
  cases hl : lookup api fs baseDir p with
  | none =>
    simp only [render, hl] at hab
    exact XAB.tag_cold hre hp a b Y hab hb
  | some c =>
    simp only [render, hl] at hab
    exact XAB.block_cold c (hc c hl) a b Y hab hb

/-- One step of the two scans at a match of the first pattern. -/
theorem comm_match {s t p r : Str} (hre : reA s = some (t, p, r)) (hp : '<' ∉ p)
    (hc : ∀ c, lookup api fs baseDir p = some c → '<' ∉ c) :
    positional reB preB postB api fs (positional reA preA postA api fs s baseDir) baseDir
        = render preA postA api fs baseDir (Seg.tag t p)
          ++ positional reB preB postB api fs (positional reA preA postA api fs r baseDir) baseDir ∧
      positional reA preA postA api fs (positional reB preB postB api fs s baseDir) baseDir
        = render preA postA api fs baseDir (Seg.tag t p)
          ++ positional reA preA postA api fs (positional reB preB postB api fs r baseDir) baseDir ∧
      matchAll reA s = (t, p) :: matchAll reA r ∧
      matchAll reB s = matchAll reB r ∧
      matchAll reB (positional reA preA postA api fs s baseDir)
        = matchAll reB (positional reA preA postA api fs r baseDir) ∧
      matchAll reA (positional reB preB postB api fs s baseDir)
        = (t, p) :: matchAll reA (positional reB preB postB api fs r baseDir) := by
  have hs := LA.re_split hre
  have hcoldT : ∀ Y a b, t = a ++ b → b ≠ [] → reB (b ++ Y) = none :=
    fun Y a b hab hb => LB.re_none_of_op (XAB.tag_cold hre hp a b Y hab hb)
  have hcoldR := fun Y a b => render_cold LB XAB api fs baseDir hre hp hc a b Y
  have hPA := positional_some LA api fs baseDir hre
  have hPB : positional reB preB postB api fs s baseDir
      = t ++ positional reB preB postB api fs r baseDir := by
    rw [hs]
    exact positional_gap_run api fs baseDir t r (hcoldT r)
  have hre' : reA (t ++ positional reB preB postB api fs r baseDir)
      = some (t, p, positional reB preB postB api fs r baseDir) :=
    LA.re_transfer _ hre (fun w hw h => positional_close LB api fs baseDir r w hw h)
  refine ⟨?_, ?_, matchAll_some LA hre, ?_, ?_, ?_⟩
  · rw [hPA]
    exact positional_gap_run api fs baseDir _ _ (hcoldR _)
  · rw [hPB]
    exact positional_some LA api fs baseDir hre'
  · rw [hs]
    exact matchAll_gap_run r t (hcoldT r)
  · rw [hPA]
    exact matchAll_gap_run _ _ (hcoldR _)
  · rw [hPB]
    exact matchAll_some LA hre'

omit XAB in
/-- One step of the second scan at a character where neither pattern matches. -/
theorem comm_gap (c : Char) (cs : Str) (hB : reB (c :: cs) = none)
    (hBA : ∀ m ∈ matchAll reB (c :: positional reA preA postA api fs cs baseDir), '<' ∉ m.2) :
    reB (c :: positional reA preA postA api fs cs baseDir) = none := by
  cases hre : reB (c :: positional reA preA postA api fs cs baseDir) with
  | none => rfl
  | some v =>
    exfalso
    obtain ⟨J, p, r'⟩ := v
    rw [matchAll_some LB hre] at hBA
    have hp := hBA (J, p) (List.mem_cons_self _ _)
    obtain ⟨u, o, -, ho⟩ := LB.re_open hre
    obtain ⟨hsplit, k, u', hk, -, hno⟩ := LB.op_shape ho
    rw [hk] at hsplit
    simp only [List.cons_append, List.cons.injEq] at hsplit
    obtain ⟨hc, hs2⟩ := hsplit
    subst hc
    have hpf : k :: u' <+: positional reA preA postA api fs cs baseDir := ⟨_, hs2.symm⟩
    obtain ⟨z, hz⟩ :=
      (positional_chunk LA api fs baseDir cs.length cs (Nat.le_refl _) _ (hno hp)).1 hpf
    have hop := LB.op_ext z ho
    rw [hk] at hop
    have : ('<' :: k :: u') ++ z = '<' :: cs := by rw [← hz]; rfl
    rw [this] at hop
    obtain ⟨t2, r2, h2⟩ := LB.op_re hop
    rw [hB] at h2
    cases h2

end Cross

section Comm

variable {reA opA : Str → Option (Str × Str × Str)} {preA postA : Str}
variable {reB opB : Str → Option (Str × Str × Str)} {preB postB : Str}
variable (LA : TagLaws reA opA preA postA) (LB : TagLaws reB opB preB postB)
variable (XAB : CrossLaws reA preA postA opB) (XBA : CrossLaws reB preB postB opA)
variable (api : PathApi) (fs : Fs) (baseDir : Str)

include LA LB XAB XBA

/-- Positional replacement of two patterns gives the same text in both orders. -/
theorem positional_comm : ∀ (n : Nat) (s : Str), s.length ≤ n →
    Benign api fs baseDir (matchAll reA s) → Benign api fs baseDir (matchAll reB s) →
    (∀ m ∈ matchAll reB (positional reA preA postA api fs s baseDir), '<' ∉ m.2) →
    (∀ m ∈ matchAll reA (positional reB preB postB api fs s baseDir), '<' ∉ m.2) →
    positional reB preB postB api fs (positional reA preA postA api fs s baseDir) baseDir
      = positional reA preA postA api fs (positional reB preB postB api fs s baseDir) baseDir := by
  intro n
  induction n with
  | zero =>
    intro s h _ _ _ _
    have : s = [] := List.length_eq_zero.1 (Nat.le_zero.1 h)
    subst this
    simp only [positional_nil LA, positional_nil LB]
  | succ n ih =>
    intro s h hA hB hBA hAB
    cases hreA : reA s with
    | some v =>
      obtain ⟨t, p, r⟩ := v
      have hlen := LA.rest_length hreA
      have hmem : (t, p) ∈ matchAll reA s := by rw [matchAll_some LA hreA]; simp
      obtain ⟨hp, hc⟩ := hA (t, p) hmem
      obtain ⟨e1, e2, e3, e4, e5, e6⟩ :=
        comm_match LA LB XAB api fs baseDir hreA hp (fun c hl => (hc c hl).1)
      rw [e1, e2]
      rw [e3] at hA
      rw [e4] at hB
      rw [e5] at hBA
      rw [e6] at hAB
      rw [ih r (by omega) (Benign.tail api fs baseDir hA) hB hBA
        (fun m hm => hAB m (List.mem_cons_of_mem _ hm))]
    | none =>
      cases hreB : reB s with
      | some v =>
        obtain ⟨t, p, r⟩ := v
        have hlen := LB.rest_length hreB
        have hmem : (t, p) ∈ matchAll reB s := by rw [matchAll_some LB hreB]; simp
        obtain ⟨hp, hc⟩ := hB (t, p) hmem
        obtain ⟨e1, e2, e3, e4, e5, e6⟩ :=
          comm_match LB LA XBA api fs baseDir hreB hp (fun c hl => (hc c hl).1)
        rw [e1, e2]
        rw [e3] at hB
        rw [e4] at hA
        rw [e5] at hAB
        rw [e6] at hBA
        rw [ih r (by omega) hA (Benign.tail api fs baseDir hB)
          (fun m hm => hBA m (List.mem_cons_of_mem _ hm)) hAB]
      | none =>
        cases s with
        | nil => simp only [positional_nil LA, positional_nil LB]
        | cons c cs =>
          rw [positional_cons api fs baseDir c cs hreA] at hBA ⊢
          rw [positional_cons api fs baseDir c cs hreB] at hAB ⊢
          have g1 := comm_gap LA LB api fs baseDir c cs hreB hBA
          have g2 := comm_gap LB LA api fs baseDir c cs hreA hAB
          rw [positional_cons api fs baseDir c _ g1, positional_cons api fs baseDir c _ g2]
          rw [matchAll_cons c cs hreA] at hA
          rw [matchAll_cons c cs hreB] at hB
          rw [matchAll_cons c _ g1] at hBA
          rw [matchAll_cons c _ g2] at hAB
          rw [ih cs (by simpa using h) hA hB hBA hAB]

end Comm

section At

variable {reA opA : Str → Option (Str × Str × Str)} {preA postA : Str}
variable (LA : TagLaws reA opA preA postA)
variable (api : PathApi) (fs : Fs) (baseDir : Str)

include LA

/-- Every match of a scan starts at a position of the text. -/
theorem mem_matchAll_at : ∀ (n : Nat) (s : Str), s.length ≤ n → ∀ m ∈ matchAll reA s,
    ∃ a s' r, s = a ++ s' ∧ reA s' = some (m.1, m.2, r) := by
  intro n
  induction n with
  | zero =>
    intro s h m hm
    have : s = [] := List.length_eq_zero.1 (Nat.le_zero.1 h)
    subst this
    unfold matchAll at hm
    rw [matchAllFrom_nil reA _ LA.re_nil] at hm
    cases hm
  | succ n ih =>
    intro s h m hm
    cases hre : reA s with
    | none =>
      cases s with
      | nil =>
        unfold matchAll at hm
        rw [matchAllFrom_nil reA _ hre] at hm
        cases hm
      | cons c cs =>
        rw [matchAll_cons c cs hre] at hm
        obtain ⟨a, s', r, h1, h2⟩ := ih cs (by simpa using h) m hm
        exact ⟨c :: a, s', r, by rw [h1]; rfl, h2⟩
    | some v =>
      obtain ⟨t, p, r⟩ := v
      have hr := LA.rest_length hre
      rw [matchAll_some LA hre] at hm
      simp only [List.mem_cons] at hm
      rcases hm with hm | hm
      · exact ⟨[], s, r, rfl, by rw [hre, hm]⟩
      · obtain ⟨a, s', r', h1, h2⟩ := ih r (by omega) m hm
        exact ⟨t ++ a, s', r', by rw [LA.re_split hre, h1, List.append_assoc], h2⟩

/-- In a text without a position where a readable opening tag starts, no
match whose path holds no `<` can be inlined. -/
theorem cold_unresolvable (Q : Str) (hcold : Cold opA api fs baseDir Q [])
    (hpaths : pathsClean (matchAll reA Q) = true) :
    unresolvable api fs baseDir (matchAll reA Q) = true := by
  unfold unresolvable
  rw [List.all_eq_true]
  intro m hm
  obtain ⟨a, s', r, h1, h2⟩ := mem_matchAll_at LA Q.length Q (Nat.le_refl _) m hm
  obtain ⟨u, o, -, ho⟩ := LA.re_open h2
  have hne : s' ≠ [] := by
    intro e
    subst e
    rw [LA.re_nil] at h2
    cases h2
  have := hcold a s' h1 hne u m.2 (o ++ r) (by simpa using ho)
    ((pathsClean_iff _).1 hpaths m hm)
  rw [this]
  rfl

end At

section Transfer

variable {reA opA : Str → Option (Str × Str × Str)} {preA postA : Str}
variable {reB opB : Str → Option (Str × Str × Str)} {preB postB : Str}
variable (LA : TagLaws reA opA preA postA) (LB : TagLaws reB opB preB postB)
variable (XBA : CrossLaws reB preB postB opA)
variable (api : PathApi) (fs : Fs) (baseDir : Str)

include LA LB XBA

/-- Positional replacement of one pattern creates no position where a readable
opening tag of the other pattern starts. -/
theorem cold_transfer : ∀ (n : Nat) (s R : Str), s.length ≤ n →
    Cold opA api fs baseDir (R ++ s) [] → Benign api fs baseDir (matchAll reB s) →
    Cold opA api fs baseDir (R ++ positional reB preB postB api fs s baseDir) [] := by
  intro n
  induction n with
  | zero =>
    intro s R h hcold _
    have : s = [] := List.length_eq_zero.1 (Nat.le_zero.1 h)
    subst this
    rw [positional_nil LB]
    exact hcold
  | succ n ih =>
    intro s R h hcold hben
    cases hre : reB s with
    | none =>
      cases s with
      | nil => rw [positional_nil LB]; exact hcold
      | cons c cs =>
        rw [positional_cons api fs baseDir c cs hre]
        rw [matchAll_cons c cs hre] at hben
        have := ih cs (R ++ [c]) (by simpa using h) (by simpa using hcold) hben
        simpa using this
    | some v =>
      obtain ⟨t, p, r⟩ := v
      have hr := LB.rest_length hre
      have hs := LB.re_split hre
      rw [matchAll_some LB hre] at hben
      have hhead := hben (t, p) (List.mem_cons_self _ _)
      rw [positional_some LB api fs baseDir hre]
      cases hl : lookup api fs baseDir p with
      | none =>
        simp only [render, hl]
        have := ih r (R ++ t) (by omega) (by rw [List.append_assoc, ← hs]; exact hcold)
          (Benign.tail api fs baseDir hben)
        simpa [List.append_assoc] using this
      | some c =>
        simp only [render, hl]
        obtain ⟨hc1, -⟩ := hhead.2 c hl
        have hnew : Cold opA api fs baseDir (R ++ (preB ++ c ++ postB) ++ r) [] := by
          intro a b hab hb u p1 z1 hop hp1
          rw [List.append_nil] at hop
          rw [List.append_assoc] at hab
          rcases List.append_eq_append_iff.1 hab with ⟨a', ha, hx⟩ | ⟨c', hR, hb'⟩
          · -- the position is in the block or after it
            rcases List.append_eq_append_iff.1 hx with ⟨a2, ha2, hx2⟩ | ⟨c2, hblk, hb2⟩
            · -- after the block
              refine hcold (R ++ t ++ a2) b ?_ hb u p1 z1 (by simpa using hop) hp1
              rw [hs, hx2]
              simp [List.append_assoc]
            · by_cases hc2 : c2 = []
              · subst hc2
                simp only [List.nil_append] at hb2
                refine hcold (R ++ t) b ?_ hb u p1 z1 (by simpa using hop) hp1
                rw [hs, hb2, List.append_assoc]
              · rw [hb2, XBA.block_cold c hc1 a' c2 r hblk hc2] at hop
                cases hop
          · by_cases hc' : c' = []
            · subst hc'
              simp only [List.nil_append] at hb'
              rw [hb', XBA.block_cold c hc1 [] (preB ++ c ++ postB) r rfl (by
                obtain ⟨k, pre', hk, -⟩ := LB.pre_head
                rw [hk]; simp)] at hop
              cases hop
            · obtain ⟨hsplit, k, u', hk, -, hno⟩ := LA.op_shape hop
              obtain ⟨k0, pre', hpre, -⟩ := LB.pre_head
              have hpf : u <+: c' ++ '<' :: (k0 :: pre' ++ c ++ postB ++ r) := by
                refine ⟨z1, ?_⟩
                rw [← hsplit, hb', hpre]
                simp
              rw [hk] at hpf
              have hpf2 := prefix_of_prefix_append_lt (k :: u') c' _ hc' (hno hp1) hpf
              rw [← hk] at hpf2
              obtain ⟨w, hw⟩ := hpf2
              have hop2 := LA.op_ext (w ++ (t ++ r)) hop
              rw [← List.append_assoc, hw] at hop2
              refine hcold a (c' ++ (t ++ r)) ?_ (by simp [hc']) u p1 _ (by simpa using hop2) hp1
              rw [hs, hR, List.append_assoc]
        have := ih r (R ++ (preB ++ c ++ postB)) (by omega) hnew (Benign.tail api fs baseDir hben)
        simpa [List.append_assoc] using this

end Transfer

/-! ## The stylesheet pattern -/

theorem cssRegex_some {s t g r : Str} (h : cssRegex s = some (t, g, r)) :
    s = t ++ r ∧ CssShape t g := by
  simp only [cssRegex, bind, Option.bind_eq_some, Prod.exists, pure, Option.some.injEq,
    Prod.mk.injEq] at h
  obtain ⟨m1, r1, h1, w1, r2, h2, m2, r3, h3, w2, r4, h4, m3, r5, h5, g1, r6, h6, m4, r7, h7,
    m6, r10, h10, ht, hg, hr⟩ := h
  rcases hm : many isWhiteSpace r7 with ⟨w3, r8⟩
  rw [hm] at h10 ht
  simp only at h10 ht
  rcases ho : optLit "/".toList r8 with ⟨m5, r9⟩
  rw [ho] at h10 ht
  simp only at h10 ht
  obtain ⟨e1, f1⟩ := lit_some h1
  obtain ⟨e2, f2⟩ := many1_some h2
  obtain ⟨e3, f3⟩ := lit_some h3
  obtain ⟨e4, f4⟩ := many1_some h4
  obtain ⟨e5, f5⟩ := lit_some h5
  obtain ⟨e6, f6⟩ := many1_some h6
  obtain ⟨e7, f7⟩ := lit_some h7
  obtain ⟨e8, f8⟩ := many_eq hm
  obtain ⟨e9, f9⟩ := optLit_eq ho
  obtain ⟨e10, f10⟩ := lit_some h10
  subst hg hr
  refine ⟨?_, m1, w1, m2, w2, m3, m4, w3, m5, m6, ?_, f1, f2, f3, f4, f5, f6, f7, f8,
    f9.imp (fun h => h.1) id, f10⟩
  · rw [e1, e2, e3, e4, e5, e6, e7, e8, e9, e10, ← ht]
    simp only [List.append_assoc]
  · rw [← ht]
    simp only [List.append_assoc]

theorem cssRegex_append {t g : Str} (h : CssShape t g) (z : Str) :
    cssRegex (t ++ z) = some (t, g, z) := by
  obtain ⟨m1, w1, m2, w2, m3, m4, w3, m5, m6, ht, f1, f2, f3, f4, f5, f6, f7, f8, f9, f10⟩ := h
  subst ht
  have a1 := lit_append f1 (w1 ++ (m2 ++ (w2 ++ (m3 ++ (g ++ (m4 ++ (w3 ++ (m5 ++ (m6 ++ z)))))))))
  have a2 := many1_before_lit f2.1 f2.2 f3 (ws_of_ciEq (by decide))
    (w2 ++ (m3 ++ (g ++ (m4 ++ (w3 ++ (m5 ++ (m6 ++ z)))))))
  have a3 := lit_append f3 (w2 ++ (m3 ++ (g ++ (m4 ++ (w3 ++ (m5 ++ (m6 ++ z)))))))
  have a4 := many1_before_lit f4.1 f4.2 f5 (ws_of_ciEq (by decide))
    (g ++ (m4 ++ (w3 ++ (m5 ++ (m6 ++ z)))))
  have a5 := lit_append f5 (g ++ (m4 ++ (w3 ++ (m5 ++ (m6 ++ z)))))
  have a6 := many1_before_lit f6.1 f6.2 f7 quote_of_ciEq (w3 ++ (m5 ++ (m6 ++ z)))
  have a7 := lit_append f7 (w3 ++ (m5 ++ (m6 ++ z)))
  have a10 := lit_append f10 z
  rcases f9 with f9 | f9
  · subst f9
    have a8 := many_before_lit f8 f10 (ws_of_ciEq (by decide)) z
    have a9 : optLit "/".toList (m6 ++ z) = ([], m6 ++ z) :=
      optLit_skip f10 (fun d hd => by
        have := ciEq_symbol (by decide) hd
        subst this
        unfold ciEq canonicalize
        decide) z
    simp only [List.nil_append] at a1 a2 a3 a4 a5 a6 a7
    simp only [cssRegex, List.append_assoc, List.nil_append, bind, Option.bind, a1, a2, a3, a4,
      a5, a6, a7, a8, a9, a10, pure]
  · have a8 := many_before_lit f8 f9 (ws_of_ciEq (by decide)) (m6 ++ z)
    have a9 := optLit_append f9 (m6 ++ z)
    simp only [cssRegex, List.append_assoc, bind, Option.bind, a1, a2, a3, a4,
      a5, a6, a7, a8, a9, a10, pure]

theorem cssShape_head {t g : Str} (h : CssShape t g) :
    ∃ k u', t = '<' :: k :: u' ∧ ciEq k 'l' ∧ ('<' ∉ g → '<' ∉ k :: u') := by
  obtain ⟨m1, w1, m2, w2, m3, m4, w3, m5, m6, ht, f1, f2, f3, f4, f5, f6, f7, f8, f9, f10⟩ := h
  obtain ⟨c1, m1', e1, hc1, f1'⟩ := head_of_lit f1
  obtain ⟨c2, m1'', e2, hc2, f1''⟩ := head_of_lit f1'
  have hc1' := ciEq_symbol (by decide) hc1
  subst e1 e2 hc1'
  refine ⟨c2, m1'' ++ (w1 ++ (m2 ++ (w2 ++ (m3 ++ (g ++ (m4 ++ (w3 ++ (m5 ++ m6)))))))), ?_, hc2, ?_⟩
  · rw [ht]; simp
  · intro hg
    have n1 := lit_no_lt f1' (by decide)
    have n2 := ws_no_lt f2.2
    have n3 := lit_no_lt f3 (by decide)
    have n4 := ws_no_lt f4.2
    have n5 := lit_no_lt f5 (by decide)
    have n7 := lit_no_lt f7 (by decide)
    have n8 := ws_no_lt f8
    have n9 := opt_no_lt f9 (by decide)
    have n10 := lit_no_lt f10 (by decide)
    intro hm
    rw [← List.cons_append, List.mem_append] at hm
    simp only [List.mem_append] at hm
    tauto

/-- The stylesheet pattern and the `<style>` block satisfy the laws. -/
theorem cssLaws : TagLaws cssRegex cssRegex "<style>\n".toList "\n</style>".toList where
  re_split h := (cssRegex_some h).1
  re_open := by
    intro s t p r h
    exact ⟨t, [], by simp, by simpa using h⟩
  re_inner := by
    intro s t p r h hp a b hab ha
    exfalso
    obtain ⟨k, u', ht, -, hno⟩ := cssShape_head (cssRegex_some h).2
    cases a with
    | nil => exact ha rfl
    | cons y a =>
      rw [ht] at hab
      simp at hab
      apply hno hp
      rw [hab.2]
      simp
  op_shape := by
    intro s u p z h
    obtain ⟨hs, hshape⟩ := cssRegex_some h
    obtain ⟨k, u', ht, hk, hno⟩ := cssShape_head hshape
    refine ⟨hs, k, u', ht, ?_, hno⟩
    intro hk'
    subst hk'
    have := ciEq_letter hk (by decide)
    revert this
    decide
  op_ext := by
    intro s u p z z' h
    exact cssRegex_append (cssRegex_some h).2 z'
  op_re := by
    intro s u p z h
    exact ⟨u, z, h⟩
  block_cold := by
    intro c hc a b z hab hb
    refine block_cold_of cssRegex 76 "style>\n".toList "\n</style>".toList ?_ (by decide) (by decide)
      ?_ c hc a b z hab hb
    · intro s u p z h
      obtain ⟨hs, hshape⟩ := cssRegex_some h
      obtain ⟨k, u', ht, hk, -⟩ := cssShape_head hshape
      refine ⟨k, u' ++ z, by rw [hs, ht]; simp, ?_⟩
      simpa [ciEq, canonicalize] using hk
    · intro x
      simp [cssRegex, lit, canonicalize]
  pre_head := ⟨_, _, rfl, by decide⟩
  no_dollar := by decide
  re_transfer := by
    intro s t p r r' h _
    exact cssRegex_append (cssRegex_some h).2 r'

/-! ## The script pattern -/

theorem jsOpenTag_some {s u g r : Str} (h : jsOpenTag s = some (u, g, r)) :
    s = u ++ r ∧ JsOpenShape u g := by
  simp only [jsOpenTag, bind, Option.bind_eq_some, Prod.exists, pure, Option.some.injEq,
    Prod.mk.injEq] at h
  obtain ⟨m1, r1, h1, w1, r2, h2, m2, r3, h3, g1, r4, h4, m3, r5, h5, m4, r7, h7, ht, hg, hr⟩ := h
  rcases hm : many isWhiteSpace r5 with ⟨w2, r6⟩
  rw [hm] at h7 ht
  simp only at h7 ht
  obtain ⟨e1, f1⟩ := lit_some h1
  obtain ⟨e2, f2⟩ := many1_some h2
  obtain ⟨e3, f3⟩ := lit_some h3
  obtain ⟨e4, f4⟩ := many1_some h4
  obtain ⟨e5, f5⟩ := lit_some h5
  obtain ⟨e6, f6⟩ := many_eq hm
  obtain ⟨e7, f7⟩ := lit_some h7
  subst hg hr
  refine ⟨?_, m1, w1, m2, m3, w2, m4, ?_, f1, f2, f3, f4, f5, f6, f7⟩
  · rw [e1, e2, e3, e4, e5, e6, e7, ← ht]
    simp only [List.append_assoc]
  · rw [← ht]
    simp only [List.append_assoc]

theorem jsOpenTag_append {u g : Str} (h : JsOpenShape u g) (z : Str) :
    jsOpenTag (u ++ z) = some (u, g, z) := by
  obtain ⟨m1, w1, m2, m3, w2, m4, ht, f1, f2, f3, f4, f5, f6, f7⟩ := h
  subst ht
  have a1 := lit_append f1 (w1 ++ (m2 ++ (g ++ (m3 ++ (w2 ++ (m4 ++ z))))))
  have a2 := many1_before_lit f2.1 f2.2 f3 (ws_of_ciEq (by decide)) (g ++ (m3 ++ (w2 ++ (m4 ++ z))))
  have a3 := lit_append f3 (g ++ (m3 ++ (w2 ++ (m4 ++ z))))
  have a4 := many1_before_lit f4.1 f4.2 f5 quote_of_ciEq (w2 ++ (m4 ++ z))
  have a5 := lit_append f5 (w2 ++ (m4 ++ z))
  have a6 := many_before_lit f6 f7 (ws_of_ciEq (by decide)) z
  have a7 := lit_append f7 z
  simp only [jsOpenTag, List.append_assoc, bind, Option.bind, a1, a2, a3, a4, a5, a6, a7, pure]

theorem jsOpenShape_head {u g : Str} (h : JsOpenShape u g) :
    ∃ k u', u = '<' :: k :: u' ∧ ciEq k 's' ∧ ('<' ∉ g → '<' ∉ k :: u') := by
  obtain ⟨m1, w1, m2, m3, w2, m4, ht, f1, f2, f3, f4, f5, f6, f7⟩ := h
  obtain ⟨c1, m1', e1, hc1, f1'⟩ := head_of_lit f1
  obtain ⟨c2, m1'', e2, hc2, f1''⟩ := head_of_lit f1'
  have hc1' := ciEq_symbol (by decide) hc1
  subst e1 e2 hc1'
  refine ⟨c2, m1'' ++ (w1 ++ (m2 ++ (g ++ (m3 ++ (w2 ++ m4))))), ?_, hc2, ?_⟩
  · rw [ht]; simp
  · intro hg
    have n1 := lit_no_lt f1' (by decide)
    have n2 := ws_no_lt f2.2
    have n3 := lit_no_lt f3 (by decide)
    have n5 := lit_no_lt f5 (by decide)
    have n6 := ws_no_lt f6
    have n7 := lit_no_lt f7 (by decide)
    intro hm
    rw [← List.cons_append, List.mem_append] at hm
    simp only [List.mem_append] at hm
    tauto

theorem jsRegex_some {s t g r : Str} (h : jsRegex s = some (t, g, r)) :
    ∃ u o, t = u ++ o ∧ jsOpenTag s = some (u, g, o ++ r) ∧
      ((o = [] ∧ lit "</script>".toList r = none) ∨ List.Forall₂ ciEq o "</script>".toList) := by
  simp only [jsRegex, bind, Option.bind_eq_some, Prod.exists, pure, Option.some.injEq,
    Prod.mk.injEq] at h
  obtain ⟨u, g1, rr, hop, ht, hg, hr⟩ := h
  rcases ho : optLit "</script>".toList rr with ⟨o, r1⟩
  rw [ho] at ht hr
  simp only at ht hr
  obtain ⟨e1, f1⟩ := optLit_eq ho
  subst hg hr
  refine ⟨u, o, ht.symm, by rw [hop, e1], ?_⟩
  rcases f1 with ⟨f1, f2, f3⟩ | f1
  · left
    subst f1
    simp only [List.nil_append] at e1
    rw [← e1]
    exact ⟨rfl, f3⟩
  · exact Or.inr f1

theorem jsRegex_append {u g o : Str} (h : JsOpenShape u g) (r' : Str)
    (ho : optLit "</script>".toList (o ++ r') = (o, r')) :
    jsRegex (u ++ o ++ r') = some (u ++ o, g, r') := by
  have := jsOpenTag_append h (o ++ r')
  simp only [jsRegex, List.append_assoc, bind, Option.bind, this, ho, pure]

theorem jsRegex_of_open {s u g z : Str} (h : jsOpenTag s = some (u, g, z)) :
    ∃ t r, jsRegex s = some (t, g, r) := by
  simp [jsRegex, bind, h, pure]

/-- The script pattern and the `<script>` block satisfy the laws. -/
theorem jsLaws : TagLaws jsRegex jsOpenTag "<script>\n".toList "\n</script>".toList where
  re_split := by
    intro s t p r h
    obtain ⟨u, o, ht, hop, -⟩ := jsRegex_some h
    rw [(jsOpenTag_some hop).1, ht, List.append_assoc]
  re_open := by
    intro s t p r h
    obtain ⟨u, o, ht, hop, -⟩ := jsRegex_some h
    exact ⟨u, o, ht, hop⟩
  re_inner := by
    intro s t p r h hp a b hab ha
    obtain ⟨u, o, ht, hop, ho⟩ := jsRegex_some h
    obtain ⟨k, u', hu, -, hno⟩ := jsOpenShape_head (jsOpenTag_some hop).2
    have hno' := hno hp
    have hu2 : ∀ x y, u = x ++ '<' :: y → x = [] := by
      intro x y hxy
      cases x with
      | nil => rfl
      | cons c x =>
        exfalso
        rw [hu] at hxy
        simp only [List.cons_append, List.cons.injEq] at hxy
        apply hno'
        rw [hxy.2]
        simp
    have ho2 : o = [] ∨ ∃ o', o = '<' :: '/' :: o' ∧ '<' ∉ o' := by
      rcases ho with ho | ho
      · exact Or.inl ho.1
      · right
        obtain ⟨c1, o1, e1, hc1, f1⟩ := head_of_lit ho
        obtain ⟨c2, o2, e2, hc2, f2⟩ := head_of_lit f1
        have h1 := ciEq_symbol (by decide) hc1
        have h2 := ciEq_symbol (by decide) hc2
        subst e1 e2 h1 h2
        exact ⟨o2, rfl, lit_no_lt f2 (by decide)⟩
    rw [ht] at hab
    rcases List.append_eq_append_iff.1 hab with ⟨a', -, ho3⟩ | ⟨c', hu3, hb3⟩
    · -- the split falls inside the optional closing tag
      rcases ho2 with ho2 | ⟨o', ho2, hno2⟩
      · subst ho2
        simp at ho3
      · subst ho2
        cases a' with
        | nil =>
          simp only [List.nil_append, List.cons.injEq, true_and] at ho3
          exact ⟨o', ho3.symm⟩
        | cons y a' =>
          exfalso
          simp only [List.cons_append, List.cons.injEq] at ho3
          cases a' with
          | nil =>
            simp only [List.nil_append, List.cons.injEq] at ho3
            have := ho3.2.1
            revert this
            decide
          | cons y2 a'' =>
            simp only [List.cons_append, List.cons.injEq] at ho3
            apply hno2
            rw [ho3.2.2]
            simp
    · -- the split falls inside the opening tag
      cases c' with
      | nil =>
        simp only [List.nil_append] at hb3
        rcases ho2 with ho2 | ⟨o', ho2, -⟩
        · rw [ho2] at hb3
          cases hb3
        · rw [ho2] at hb3
          simp only [List.cons.injEq, true_and] at hb3
          exact ⟨o', hb3⟩
      | cons x c'' =>
        exfalso
        simp only [List.cons_append, List.cons.injEq] at hb3
        rw [← hb3.1] at hu3
        exact ha (hu2 a _ hu3)
  op_shape := by
    intro s u p z h
    obtain ⟨hs, hshape⟩ := jsOpenTag_some h
    obtain ⟨k, u', ht, hk, hno⟩ := jsOpenShape_head hshape
    refine ⟨hs, k, u', ht, ?_, hno⟩
    intro hk'
    subst hk'
    have := ciEq_letter hk (by decide)
    revert this
    decide
  op_ext := by
    intro s u p z z' h
    exact jsOpenTag_append (jsOpenTag_some h).2 z'
  op_re := by
    intro s u p z h
    exact jsRegex_of_open h
  block_cold := by
    intro c hc a b z hab hb
    refine block_cold_of jsOpenTag 83 "script>\n".toList "\n</script>".toList ?_ (by decide)
      (by decide) ?_ c hc a b z hab hb
    · intro s u p z h
      obtain ⟨hs, hshape⟩ := jsOpenTag_some h
      obtain ⟨k, u', ht, hk, -⟩ := jsOpenShape_head hshape
      refine ⟨k, u' ++ z, by rw [hs, ht]; simp, ?_⟩
      simpa [ciEq, canonicalize] using hk
    · intro x
      simp [jsOpenTag, lit, canonicalize, many1, isWhiteSpace]
  pre_head := ⟨_, _, rfl, by decide⟩
  no_dollar := by decide
  re_transfer := by
    intro s t p r r' h hsim
    obtain ⟨u, o, ht, hop, ho⟩ := jsRegex_some h
    have hshape := (jsOpenTag_some hop).2
    rw [ht]
    apply jsRegex_append hshape
    rcases ho with ⟨ho, hnone⟩ | ho
    · subst ho
      simp only [List.nil_append]
      cases hl : lit "</script>".toList r' with
      | none => unfold optLit; rw [hl]
      | some v =>
        exfalso
        obtain ⟨m, x⟩ := v
        obtain ⟨e1, f1⟩ := lit_some hl
        obtain ⟨c1, o1, e2, hc1, f2⟩ := head_of_lit f1
        obtain ⟨c2, o2, e3, hc2, f3⟩ := head_of_lit f2
        have h1 := ciEq_symbol (by decide) hc1
        have h2 := ciEq_symbol (by decide) hc2
        subst e2 e3 h1 h2
        have hpf := hsim o2 (lit_no_lt f3 (by decide)) ⟨x, e1.symm⟩
        obtain ⟨y, hy⟩ := hpf
        rw [← hy, lit_append f1 y] at hnone
        cases hnone
    · exact optLit_append ho r'

/-! ## The two patterns against each other -/

theorem css_tag_cold_for_jsOpen {s t p r : Str} (h : cssRegex s = some (t, p, r)) (hp : '<' ∉ p)
    (a b Y : Str) (hab : t = a ++ b) (hb : b ≠ []) : jsOpenTag (b ++ Y) = none := by
  cases hop : jsOpenTag (b ++ Y) with
  | none => rfl
  | some v =>
    exfalso
    obtain ⟨u, p2, r2⟩ := v
    obtain ⟨hs2, hshape2⟩ := jsOpenTag_some hop
    obtain ⟨k2, u2, hu2, hk2, -⟩ := jsOpenShape_head hshape2
    obtain ⟨k, t', ht, hk, hno⟩ := cssShape_head (cssRegex_some h).2
    rw [hu2] at hs2
    cases a with
    | nil =>
      simp only [List.nil_append] at hab
      rw [← hab, ht] at hs2
      simp only [List.cons_append, List.cons.injEq, true_and] at hs2
      rw [← hs2.1] at hk2
      unfold ciEq at hk hk2
      rw [hk] at hk2
      revert hk2
      decide
    | cons y a =>
      rw [ht] at hab
      simp only [List.cons_append, List.cons.injEq] at hab
      cases b with
      | nil => exact hb rfl
      | cons x b =>
        simp only [List.cons_append, List.cons.injEq] at hs2
        apply hno hp
        rw [hab.2, hs2.1]
        simp

theorem js_tag_cold_for_css {s t p r : Str} (h : jsRegex s = some (t, p, r)) (hp : '<' ∉ p)
    (a b Y : Str) (hab : t = a ++ b) (hb : b ≠ []) : cssRegex (b ++ Y) = none := by
  cases hop : cssRegex (b ++ Y) with
  | none => rfl
  | some v =>
    exfalso
    obtain ⟨u, p2, r2⟩ := v
    obtain ⟨hs2, hshape2⟩ := cssRegex_some hop
    obtain ⟨k2, u2, hu2, hk2, -⟩ := cssShape_head hshape2
    rw [hu2] at hs2
    cases a with
    | nil =>
      simp only [List.nil_append] at hab
      obtain ⟨u0, o0, ht0, hop0, -⟩ := jsRegex_some h
      obtain ⟨k, t', ht, hk, -⟩ := jsOpenShape_head (jsOpenTag_some hop0).2
      rw [← hab, ht0, ht] at hs2
      simp only [List.cons_append, List.cons.injEq, true_and] at hs2
      rw [← hs2.1] at hk2
      unfold ciEq at hk hk2
      rw [hk] at hk2
      revert hk2
      decide
    | cons y a =>
      cases b with
      | nil => exact hb rfl
      | cons x b =>
        simp only [List.cons_append, List.cons.injEq] at hs2
        obtain ⟨hx, hb2⟩ := hs2
        subst hx
        obtain ⟨b', hb'⟩ := jsLaws.re_inner h hp (y :: a) b hab (by simp)
        rw [hb'] at hb2
        simp only [List.cons_append, List.cons.injEq] at hb2
        rw [← hb2.1] at hk2
        unfold ciEq canonicalize at hk2
        revert hk2
        decide

/-- The stylesheet pattern and its block against the script pattern. -/
theorem cssJsCross : CrossLaws cssRegex "<style>\n".toList "\n</style>".toList jsOpenTag where
  tag_cold := by
    intro s t p r h hp a b Y hab hb
    exact css_tag_cold_for_jsOpen h hp a b Y hab hb
  block_cold := by
    intro c hc a b z hab hb
    refine block_cold_of jsOpenTag 83 "style>\n".toList "\n</style>".toList ?_ (by decide)
      (by decide) ?_ c hc a b z hab hb
    · intro s u p z h
      obtain ⟨hs, hshape⟩ := jsOpenTag_some h
      obtain ⟨k, u', ht, hk, -⟩ := jsOpenShape_head hshape
      refine ⟨k, u' ++ z, by rw [hs, ht]; simp, ?_⟩
      simpa [ciEq, canonicalize] using hk
    · intro x
      simp [jsOpenTag, lit, canonicalize]

/-- The script pattern and its block against the stylesheet pattern. -/
theorem jsCssCross : CrossLaws jsRegex "<script>\n".toList "\n</script>".toList cssRegex where
  tag_cold := by
    intro s t p r h hp a b Y hab hb
    exact js_tag_cold_for_css h hp a b Y hab hb
  block_cold := by
    intro c hc a b z hab hb
    refine block_cold_of cssRegex 76 "script>\n".toList "\n</script>".toList ?_ (by decide)
      (by decide) ?_ c hc a b z hab hb
    · intro s u p z h
      obtain ⟨hs, hshape⟩ := cssRegex_some h
      obtain ⟨k, u', ht, hk, -⟩ := cssShape_head hshape
      refine ⟨k, u' ++ z, by rw [hs, ht]; simp, ?_⟩
      simpa [ciEq, canonicalize] using hk
    · intro x
      simp [cssRegex, lit, canonicalize]

/-! ## The inliners -/

theorem inlineCss_eq (api : PathApi) (fs : Fs) (html baseDir : Str) :
    inlineCss api fs html baseDir
      = inlineWith cssRegex "<style>\n".toList "\n</style>".toList api fs html baseDir := by
  unfold inlineCss inlineWith
  show List.foldl _ html _ = List.foldl _ html _
  congr 1
  funext result m
  simp only [inlineStep, lookup]
  cases existsSync fs (api.resolve baseDir m.2) <;> simp
  cases readFileContent fs (api.resolve baseDir m.2) <;> rfl

theorem inlineJs_eq (api : PathApi) (fs : Fs) (html baseDir : Str) :
    inlineJs api fs html baseDir
      = inlineWith jsRegex "<script>\n".toList "\n</script>".toList api fs html baseDir := by
  unfold inlineJs inlineWith
  show List.foldl _ html _ = List.foldl _ html _
  congr 1
  funext result m
  simp only [inlineStep, lookup]
  cases existsSync fs (api.resolve baseDir m.2) <;> simp
  cases readFileContent fs (api.resolve baseDir m.2) <;> rfl

theorem foldl_inlineStep_none (pre post : Str) (api : PathApi) (fs : Fs) (baseDir : Str) :
    ∀ (ms : List (Str × Str)) (x : Str), (∀ m ∈ ms, lookup api fs baseDir m.2 = none) →
      ms.foldl (inlineStep pre post api fs baseDir) x = x := by
  intro ms
  induction ms with
  | nil => intro x _; rfl
  | cons m ms ih =>
    intro x h
    rw [List.foldl_cons]
    have hm := h m (List.mem_cons_self _ _)
    simp only [inlineStep, hm]
    exact ih x (fun m' hm' => h m' (List.mem_cons_of_mem _ hm'))

theorem inlineWith_unresolvable (re : Str → Option (Str × Str × Str)) (pre post : Str)
    (api : PathApi) (fs : Fs) (html baseDir : Str)
    (h : unresolvable api fs baseDir (matchAll re html) = true) :
    inlineWith re pre post api fs html baseDir = html := by
  unfold inlineWith
  apply foldl_inlineStep_none
  intro m hm
  unfold unresolvable at h
  rw [List.all_eq_true] at h
  have := h m hm
  simpa [Option.isNone_iff_eq_none] using this

theorem inlineCss_unresolvable (api : PathApi) (fs : Fs) (html baseDir : Str)
    (h : unresolvable api fs baseDir (matchAll cssRegex html) = true) :
    inlineCss api fs html baseDir = html := by
  rw [inlineCss_eq]
  exact inlineWith_unresolvable _ _ _ api fs html baseDir h

theorem inlineJs_unresolvable (api : PathApi) (fs : Fs) (html baseDir : Str)
    (h : unresolvable api fs baseDir (matchAll jsRegex html) = true) :
    inlineJs api fs html baseDir = html := by
  rw [inlineJs_eq]
  exact inlineWith_unresolvable _ _ _ api fs html baseDir h

theorem lookup_file (api : PathApi) (fs : Fs) (baseDir p c : Str)
    (h : fs (api.resolve baseDir p) = FileEntry.file c) : lookup api fs baseDir p = some c := by
  simp [lookup, existsSync, readFileContent, h]

/-- The scan for stylesheet references has tried every position once it has
made more attempts than the text has characters: further attempts add nothing. -/
theorem matchAll_css_fuel (fuel : Nat) (s : Str) (h : s.length < fuel) :
    matchAllFrom cssRegex fuel s = matchAll cssRegex s :=
  matchAllFrom_fuel cssLaws fuel (s.length + 1) s h (Nat.lt_succ_self _)

/-- The scan for script references has tried every position once it has made
more attempts than the text has characters: further attempts add nothing. -/
theorem matchAll_js_fuel (fuel : Nat) (s : Str) (h : s.length < fuel) :
    matchAllFrom jsRegex fuel s = matchAll jsRegex s :=
  matchAllFrom_fuel jsLaws fuel (s.length + 1) s h (Nat.lt_succ_self _)

/-! ## The claims -/

/-- C1, evaluated where the code departs from it: the page is the one tag
`<link rel="stylesheet" href="a.css">` and `a.css`, which exists and is read,
holds `p::after{content:"$$"}`.  `inlineCss` returns a block that holds a single
`$` where the file holds `$$`, so the block around the file's exact content is
not a substring of the result: `replace` expands the `$` patterns of its
replacement string. -/
theorem css_dollar_content_not_verbatim :
    lookup joinApi (fsOf dollarFiles) "/site".toList "a.css".toList
        = some "p::after\x7bcontent:\"$$\"\x7d".toList ∧
      inlineCss joinApi (fsOf dollarFiles) linkPage "/site".toList
        = "<style>\np::after\x7bcontent:\"$\"\x7d\n</style>".toList ∧
      ¬ ("<style>\n".toList ++ "p::after\x7bcontent:\"$$\"\x7d".toList ++ "\n</style>".toList)
          <:+: inlineCss joinApi (fsOf dollarFiles) linkPage "/site".toList := by
  decide

/-- C2, evaluated where the code departs from it: the page is
`<p><script src="b.js"></script></p>` and `b.js`, which exists and is read,
holds `s.replace(/a/,"$&")`.  `inlineJs` returns a block in which `$&` has
become the text of the script tag, so the block around the file's exact content
is not a substring of the result. -/
theorem js_dollar_content_not_verbatim :
    lookup joinApi (fsOf dollarFiles) "/site".toList "b.js".toList
        = some "s.replace(/a/,\"$&\")".toList ∧
      inlineJs joinApi (fsOf dollarFiles) scriptPage "/site".toList
        = "<p><script>\ns.replace(/a/,\"<script src=\"b.js\"></script>\")\n</script></p>".toList ∧
      ¬ ("<script>\n".toList ++ "s.replace(/a/,\"$&\")".toList ++ "\n</script>".toList)
          <:+: inlineJs joinApi (fsOf dollarFiles) scriptPage "/site".toList := by
  decide

/-- C3 as stated fails.  First page: the stylesheet tag
`<link rel="stylesheet" href="x<script src=">` is matched, its file is missing,
and a script tag that starts inside its path is matched and read; after
`inlineCss` and `inlineJs` the stylesheet tag is no longer a substring of the
result.  Second page, for `inlineJs` alone: the tag `<script src=">m.js"></script>`
is matched and its file is missing, yet the first literal occurrence of a later
tag starts in the content inlined before it and runs over its beginning, so the
tag is no longer a substring of the result. -/
theorem missing_reference_clobbered :
    (("<link rel=\"stylesheet\" href=\"x<script src=\">".toList, "x<script src=".toList)
        ∈ matchAll cssRegex overlapPage ∧
      lookup joinApi (fsOf overlapFiles) "/site".toList "x<script src=".toList = none ∧
      inlineBoth joinApi (fsOf overlapFiles) "/site".toList overlapPage
        = "<link rel=\"stylesheet\" href=\"x<script>\nz\n</script>".toList ∧
      ¬ "<link rel=\"stylesheet\" href=\"x<script src=\">".toList
          <:+: inlineBoth joinApi (fsOf overlapFiles) "/site".toList overlapPage) ∧
    (("<script src=\">m.js\"></script>".toList, ">m.js".toList) ∈ matchAll jsRegex straddlePage ∧
      lookup joinApi (fsOf straddleFiles) "/site".toList ">m.js".toList = none ∧
      inlineJs joinApi (fsOf straddleFiles) straddlePage "/site".toList
        = "<script>\n<script>\nd\n</script>m.js\"></script><script src=\"x\n</script><script src=\">".toList ∧
      ¬ "<script src=\">m.js\"></script>".toList
          <:+: inlineJs joinApi (fsOf straddleFiles) straddlePage "/site".toList) := by
  decide

/-- C3, amended: under the benign precondition (no path of a matched reference
holds `<`, no content read holds `<` or `$`) a reference whose file is missing
or unreadable stands verbatim at its position.  When the scan of `html` is the
pieces `A`, the tag `t` of such a reference, and the pieces `B`, then
`inlineCss html` is the positional replacement of `A`, then `t`, then the
positional replacement of `B`; the same holds for `inlineJs`; and for `inlineJs`
after `inlineCss`, when the script references matched in `inlineCss html` are
benign too, the script scan of `inlineCss html` passes over the characters of
`t` as characters outside every match, between pieces `A'` and `B'` that cover
what `inlineCss` made of `A` and `B`, so that the final text is the replacement
of `A'`, then `t`, then the replacement of `B'`. -/
theorem missing_reference_preserved (api : PathApi) (fs : Fs) (baseDir html : Str) :
    (∀ (A B : List Seg) (t p : Str), segments cssRegex html = A ++ Seg.tag t p :: B →
        lookup api fs baseDir p = none →
        benign api fs baseDir (matchAll cssRegex html) = true →
        html = A.flatMap Seg.text ++ t ++ B.flatMap Seg.text ∧
        inlineCss api fs html baseDir
          = A.flatMap (renderCss api fs baseDir) ++ t ++ B.flatMap (renderCss api fs baseDir)) ∧
    (∀ (A B : List Seg) (t p : Str), segments jsRegex html = A ++ Seg.tag t p :: B →
        lookup api fs baseDir p = none →
        benign api fs baseDir (matchAll jsRegex html) = true →
        html = A.flatMap Seg.text ++ t ++ B.flatMap Seg.text ∧
        inlineJs api fs html baseDir
          = A.flatMap (renderJs api fs baseDir) ++ t ++ B.flatMap (renderJs api fs baseDir)) ∧
    (∀ (A B : List Seg) (t p : Str), segments cssRegex html = A ++ Seg.tag t p :: B →
        lookup api fs baseDir p = none →
        benign api fs baseDir (matchAll cssRegex html) = true →
        benign api fs baseDir (matchAll jsRegex (inlineCss api fs html baseDir)) = true →
        ∃ A' B' : List Seg,
          segments jsRegex (inlineCss api fs html baseDir) = A' ++ t.map Seg.gap ++ B' ∧
          A'.flatMap Seg.text = A.flatMap (renderCss api fs baseDir) ∧
          B'.flatMap Seg.text = B.flatMap (renderCss api fs baseDir) ∧
          inlineJs api fs (inlineCss api fs html baseDir) baseDir
            = A'.flatMap (renderJs api fs baseDir) ++ t
                ++ B'.flatMap (renderJs api fs baseDir)) := by
  refine ⟨?_, ?_, ?_⟩
  · intro A B t p hseg hl hb
    rw [inlineCss_eq]
    exact positional_at cssLaws api fs baseDir html A B t p hseg hl hb
  · intro A B t p hseg hl hb
    rw [inlineJs_eq]
    exact positional_at jsLaws api fs baseDir html A B t p hseg hl hb
  · intro A B t p hseg hl hb hb2
    have hP := (positional_at cssLaws api fs baseDir html A B t p hseg hl hb).2
    rw [← inlineCss_eq] at hP
    have hmem : Seg.tag t p ∈ segments cssRegex html := by rw [hseg]; simp
    obtain ⟨hm, s', r, hre⟩ := mem_segments cssLaws html.length html (Nat.le_refl _) t p hmem
    have hp : '<' ∉ p := ((benign_iff api fs baseDir _).1 hb (t, p) hm).1
    have hT : ∃ k T', t = '<' :: k :: T' ∧ k ≠ '/' := by
      obtain ⟨-, k, u', hk, hk2, -⟩ := cssLaws.op_shape hre
      exact ⟨k, u', hk, hk2⟩
    set X := A.flatMap (render "<style>\n".toList "\n</style>".toList api fs baseDir) with hX
    set Y := B.flatMap (render "<style>\n".toList "\n</style>".toList api fs baseDir) with hY
    have hP' : inlineCss api fs html baseDir = X ++ (t ++ Y) := by
      rw [hP, List.append_assoc]
    have hpaths : ∀ m ∈ matchAll jsRegex (X ++ (t ++ Y)), '<' ∉ m.2 := by
      intro m hm'
      rw [← hP'] at hm'
      exact ((benign_iff api fs baseDir _).1 hb2 m hm').1
    obtain ⟨A', hA', hA2⟩ := segments_split jsLaws t Y hT X.length X (Nat.le_refl _) hpaths
    have hgap : segments jsRegex (t ++ Y) = t.map Seg.gap ++ segments jsRegex Y :=
      segments_gap_run Y t (fun a b hab hb =>
        jsLaws.re_none_of_op (css_tag_cold_for_jsOpen hre hp a b Y hab hb))
    have hsegJ : segments jsRegex (inlineCss api fs html baseDir)
        = A' ++ t.map Seg.gap ++ segments jsRegex Y := by
      rw [hP', hA', hgap, List.append_assoc]
    refine ⟨A', segments jsRegex Y, hsegJ, hA2, segments_text jsLaws Y.length Y (Nat.le_refl _), ?_⟩
    rw [inlineJs_eq, (inlineWith_positional jsLaws api fs baseDir _ hb2).1]
    unfold positional
    rw [hsegJ]
    simp only [List.flatMap_append, flatMap_render_gap, renderJs]

theorem missing_reference_preserved_witness :
    (mixedPage = mixedBefore.flatMap Seg.text ++ goneCssTag ++ mixedAfter.flatMap Seg.text ∧
      inlineCss joinApi (fsOf exampleFiles) mixedPage "/site".toList
        = mixedBefore.flatMap (renderCss joinApi (fsOf exampleFiles) "/site".toList) ++ goneCssTag
            ++ mixedAfter.flatMap (renderCss joinApi (fsOf exampleFiles) "/site".toList)) ∧
    (mixedPageCss = mixedCssBefore.flatMap Seg.text ++ goneJsTag ++ mixedCssAfter.flatMap Seg.text ∧
      inlineJs joinApi (fsOf exampleFiles) mixedPageCss "/site".toList
        = mixedCssBefore.flatMap (renderJs joinApi (fsOf exampleFiles) "/site".toList) ++ goneJsTag
            ++ mixedCssAfter.flatMap (renderJs joinApi (fsOf exampleFiles) "/site".toList)) ∧
    (∃ A' B' : List Seg,
      segments jsRegex (inlineCss joinApi (fsOf exampleFiles) mixedPage "/site".toList)
        = A' ++ goneCssTag.map Seg.gap ++ B' ∧
      A'.flatMap Seg.text
        = mixedBefore.flatMap (renderCss joinApi (fsOf exampleFiles) "/site".toList) ∧
      B'.flatMap Seg.text
        = mixedAfter.flatMap (renderCss joinApi (fsOf exampleFiles) "/site".toList) ∧
      inlineJs joinApi (fsOf exampleFiles)
          (inlineCss joinApi (fsOf exampleFiles) mixedPage "/site".toList) "/site".toList
        = A'.flatMap (renderJs joinApi (fsOf exampleFiles) "/site".toList) ++ goneCssTag
            ++ B'.flatMap (renderJs joinApi (fsOf exampleFiles) "/site".toList)) :=
  ⟨(missing_reference_preserved joinApi (fsOf exampleFiles) "/site".toList mixedPage).1
      mixedBefore mixedAfter goneCssTag "gone.css".toList (by decide) (by decide) (by decide),
    (missing_reference_preserved joinApi (fsOf exampleFiles) "/site".toList mixedPageCss).2.1
      mixedCssBefore mixedCssAfter goneJsTag "gone.js".toList (by decide) (by decide) (by decide),
    (missing_reference_preserved joinApi (fsOf exampleFiles) "/site".toList mixedPage).2.2
      mixedBefore mixedAfter goneCssTag "gone.css".toList (by decide) (by decide) (by decide)
      (by decide)⟩

/-- C4: a text in which neither the stylesheet pattern nor the script pattern
has a match is returned unchanged by `inlineCss` and by `inlineJs`, on every
filesystem and for every base directory; and when it is the content of the
input file and the output path can be written, `processHtml` writes exactly
this text to the output path. -/
theorem no_reference_no_change (api : PathApi) (fs : Fs) (html baseDir : Str)
    (hc : matchAll cssRegex html = []) (hj : matchAll jsRegex html = []) :
    inlineCss api fs html baseDir = html ∧ inlineJs api fs html baseDir = html ∧
      ∀ (w : World) (inputFile outputFile : Str), w.files inputFile = FileEntry.file html →
        w.writable outputFile = true →
        (processHtml api w inputFile outputFile).written = some (outputFile, html) ∧
        (processHtml api w inputFile outputFile).world.files outputFile = FileEntry.file html := by
  have h1 : ∀ fs', inlineCss api fs' html baseDir = html := by
    intro fs'
    simp [inlineCss, hc]
  have h2 : ∀ fs', inlineJs api fs' html baseDir = html := by
    intro fs'
    simp [inlineJs, hj]
  refine ⟨h1 fs, h2 fs, ?_⟩
  intro w inputFile outputFile hin hout
  have h3 : inlineCss api w.files html (api.dirname inputFile) = html := by
    simp [inlineCss, hc]
  have h4 : inlineJs api w.files html (api.dirname inputFile) = html := by
    simp [inlineJs, hj]
  simp [processHtml, processHtmlBody, existsSync, readFileContent, hin, h3, h4, writeFile, hout]

theorem no_reference_no_change_witness :
    matchAll cssRegex plainPage = [] ∧ matchAll jsRegex plainPage = [] ∧
      inlineCss joinApi (fsOf exampleFiles) plainPage "/site".toList = plainPage ∧
      inlineJs joinApi (fsOf exampleFiles) plainPage "/site".toList = plainPage ∧
      (processHtml joinApi (worldOf [("/site/index.html", "<html><body><p>Hello</p></body></html>")])
          "/site/index.html".toList "/site/out.html".toList).written
        = some ("/site/out.html".toList, plainPage) ∧
      (processHtml joinApi (worldOf [("/site/index.html", "<html><body><p>Hello</p></body></html>")])
          "/site/index.html".toList "/site/out.html".toList).world.files "/site/out.html".toList
        = FileEntry.file plainPage :=
  have h := no_reference_no_change joinApi (fsOf exampleFiles) plainPage "/site".toList
    (by decide) (by decide)
  have h2 := h.2.2 (worldOf [("/site/index.html", "<html><body><p>Hello</p></body></html>")])
    "/site/index.html".toList "/site/out.html".toList (by decide) (by decide)
  ⟨by decide, by decide, h.1, h.2.1, h2.1, h2.2⟩

/-- C5 as stated fails: the page is the one tag
`<link rel="stylesheet" href="a.css">`, which so occurs exactly once, and
`a.css`, which is read, holds a comment that quotes this tag; the result of
`inlineCss` holds the file's content and with it the tag text. -/
theorem inlined_reference_reappears :
    matchAll cssRegex linkPage = [(linkPage, "a.css".toList)] ∧
      lookup joinApi (fsOf quotingFiles) "/site".toList "a.css".toList
        = some "/* was <link rel=\"stylesheet\" href=\"a.css\"> */".toList ∧
      inlineCss joinApi (fsOf quotingFiles) linkPage "/site".toList
        = "<style>\n/* was <link rel=\"stylesheet\" href=\"a.css\"> */\n</style>".toList ∧
      linkPage <:+: inlineCss joinApi (fsOf quotingFiles) linkPage "/site".toList := by
  decide

/-- C5, amended: under the benign precondition (no path of a matched stylesheet
reference holds `<`, no content read holds `<` or `$`), the tag text of every
matched stylesheet reference whose file is read is not a substring of
`inlineCss html`, however often the tag text occurs in `html`. -/
theorem inlined_reference_disappears (api : PathApi) (fs : Fs) (baseDir html : Str)
    (hb : benign api fs baseDir (matchAll cssRegex html) = true)
    (t p c : Str) (hm : (t, p) ∈ matchAll cssRegex html)
    (hl : lookup api fs baseDir p = some c) :
    ¬ t <:+: inlineCss api fs html baseDir := by
  rw [inlineCss_eq]
  exact inlineWith_removes cssLaws api fs baseDir html hb (t, p) hm c hl

theorem inlined_reference_disappears_witness :
    benign joinApi (fsOf exampleFiles) "/site".toList (matchAll cssRegex twicePage) = true ∧
      (linkPage, "a.css".toList) ∈ matchAll cssRegex twicePage ∧
      lookup joinApi (fsOf exampleFiles) "/site".toList "a.css".toList
        = some "body\x7bcolor:red\x7d".toList ∧
      ¬ linkPage <:+: inlineCss joinApi (fsOf exampleFiles) twicePage "/site".toList :=
  ⟨by decide, by decide, by decide,
    inlined_reference_disappears joinApi (fsOf exampleFiles) "/site".toList twicePage (by decide)
      linkPage "a.css".toList "body\x7bcolor:red\x7d".toList (by decide) (by decide)⟩

/-- C6: when `a.css` resolves to a file with content `body{color:red}` and `b.js`
to a file with content `console.log(1)`, `inlineCss` turns the page of the
worked example into the page with the `<style>` block in place of the link tag,
and `inlineJs` applied to that gives exactly the expected page, the `<script>`
block in place of the script tag and every other character unchanged. -/
theorem worked_example (api : PathApi) (fs : Fs) (baseDir : Str)
    (ha : fs (api.resolve baseDir "a.css".toList) = FileEntry.file "body\x7bcolor:red\x7d".toList)
    (hb : fs (api.resolve baseDir "b.js".toList) = FileEntry.file "console.log(1)".toList) :
    inlineCss api fs examplePage baseDir = examplePageCss ∧
      inlineJs api fs (inlineCss api fs examplePage baseDir) baseDir = examplePageInlined := by
  have h1 : matchAll cssRegex examplePage
      = [("<link rel=\"stylesheet\" href=\"a.css\">".toList, "a.css".toList)] := by decide
  have h2 : matchAll jsRegex examplePageCss
      = [("<script src=\"b.js\"></script>".toList, "b.js".toList)] := by decide
  have h3 : jsReplace examplePage "<link rel=\"stylesheet\" href=\"a.css\">".toList
      ("<style>\n".toList ++ "body\x7bcolor:red\x7d".toList ++ "\n</style>".toList)
      = examplePageCss := by decide
  have h4 : jsReplace examplePageCss "<script src=\"b.js\"></script>".toList
      ("<script>\n".toList ++ "console.log(1)".toList ++ "\n</script>".toList)
      = examplePageInlined := by decide
  have hc : inlineCss api fs examplePage baseDir = examplePageCss := by
    rw [inlineCss_eq]
    unfold inlineWith
    rw [h1]
    simp only [List.foldl, inlineStep, lookup_file api fs baseDir _ _ ha]
    exact h3
  refine ⟨hc, ?_⟩
  rw [hc, inlineJs_eq]
  unfold inlineWith
  rw [h2]
  simp only [List.foldl, inlineStep, lookup_file api fs baseDir _ _ hb]
  exact h4

theorem worked_example_witness :
    inlineCss joinApi (fsOf exampleFiles) examplePage "/site".toList = examplePageCss ∧
      inlineJs joinApi (fsOf exampleFiles)
        (inlineCss joinApi (fsOf exampleFiles) examplePage "/site".toList) "/site".toList
        = examplePageInlined :=
  worked_example joinApi (fsOf exampleFiles) "/site".toList (by decide) (by decide)

/-- C7 as stated fails: the page is the one tag
`<link rel="stylesheet" href="a.css">` and `a.css` holds a comment with a
reference to `b.css`; the first run inlines `a.css`, the second run finds the
reference to `b.css` in the inlined text and inlines it, so the second run
changes the result of the first. -/
theorem second_run_changes :
    inlineBoth joinApi (fsOf nestedCssFiles) "/site".toList linkPage
        = "<style>\n/* <link rel=\"stylesheet\" href=\"b.css\"> */\n</style>".toList ∧
      inlineBoth joinApi (fsOf nestedCssFiles) "/site".toList
          (inlineBoth joinApi (fsOf nestedCssFiles) "/site".toList linkPage)
        = "<style>\n/* <style>\nx\n</style> */\n</style>".toList ∧
      inlineBoth joinApi (fsOf nestedCssFiles) "/site".toList
          (inlineBoth joinApi (fsOf nestedCssFiles) "/site".toList linkPage)
        ≠ inlineBoth joinApi (fsOf nestedCssFiles) "/site".toList linkPage := by
  decide

/-- C7, amended: writing `inlineBoth x` for `inlineJs` after `inlineCss`, a
second run is a no-op in two cases.  First, under the benign precondition on
both scans of the first run (no path of a matched reference holds `<`, no
content read holds `<` or `$`) when no reference matched in `inlineBoth x` has a
`<` in its path.  Second, when the file of every reference still matched in
`inlineBoth x` is missing or unreadable, as it is when none is matched. -/
theorem second_run_noop (api : PathApi) (fs : Fs) (baseDir x : Str) :
    (benign api fs baseDir (matchAll cssRegex x) = true →
      benign api fs baseDir (matchAll jsRegex (inlineCss api fs x baseDir)) = true →
      pathsClean (matchAll cssRegex (inlineBoth api fs baseDir x)) = true →
      pathsClean (matchAll jsRegex (inlineBoth api fs baseDir x)) = true →
      inlineBoth api fs baseDir (inlineBoth api fs baseDir x) = inlineBoth api fs baseDir x) ∧
    (unresolvable api fs baseDir (matchAll cssRegex (inlineBoth api fs baseDir x)) = true →
      unresolvable api fs baseDir (matchAll jsRegex (inlineBoth api fs baseDir x)) = true →
      inlineBoth api fs baseDir (inlineBoth api fs baseDir x) = inlineBoth api fs baseDir x) := by
  have hsimple :
      unresolvable api fs baseDir (matchAll cssRegex (inlineBoth api fs baseDir x)) = true →
      unresolvable api fs baseDir (matchAll jsRegex (inlineBoth api fs baseDir x)) = true →
      inlineBoth api fs baseDir (inlineBoth api fs baseDir x) = inlineBoth api fs baseDir x := by
    intro hc hj
    have h1 := inlineCss_unresolvable api fs _ baseDir hc
    have h2 := inlineJs_unresolvable api fs _ baseDir hj
    show inlineJs api fs (inlineCss api fs (inlineBoth api fs baseDir x) baseDir) baseDir = _
    rw [h1, h2]
  refine ⟨?_, hsimple⟩
  intro h1 h2 h3 h4
  have hP := inlineWith_positional cssLaws api fs baseDir x h1
  rw [← inlineCss_eq] at hP
  have hQ := inlineWith_positional jsLaws api fs baseDir (inlineCss api fs x baseDir) h2
  rw [← inlineJs_eq] at hQ
  have hQ' : inlineBoth api fs baseDir x
      = positional jsRegex "<script>\n".toList "\n</script>".toList api fs
          (inlineCss api fs x baseDir) baseDir := hQ.1
  have hcoldC : Cold cssRegex api fs baseDir (inlineBoth api fs baseDir x) [] := by
    rw [hQ']
    have := cold_transfer cssLaws jsLaws jsCssCross api fs baseDir _ (inlineCss api fs x baseDir) []
      (Nat.le_refl _) (by simpa using hP.2) ((benign_iff api fs baseDir _).1 h2)
    simpa using this
  have hcoldJ : Cold jsOpenTag api fs baseDir (inlineBoth api fs baseDir x) [] := hQ.2
  exact hsimple (cold_unresolvable cssLaws api fs baseDir _ hcoldC h3)
    (cold_unresolvable jsLaws api fs baseDir _ hcoldJ h4)

theorem second_run_noop_witness :
    inlineBoth joinApi (fsOf exampleFiles) "/site".toList
        (inlineBoth joinApi (fsOf exampleFiles) "/site".toList examplePage)
      = inlineBoth joinApi (fsOf exampleFiles) "/site".toList examplePage ∧
    inlineBoth joinApi (fsOf exampleFiles) "/site".toList
        (inlineBoth joinApi (fsOf exampleFiles) "/site".toList mixedPage)
      = inlineBoth joinApi (fsOf exampleFiles) "/site".toList mixedPage :=
  ⟨(second_run_noop joinApi (fsOf exampleFiles) "/site".toList examplePage).1
      (by decide) (by decide) (by decide) (by decide),
    (second_run_noop joinApi (fsOf exampleFiles) "/site".toList mixedPage).2
      (by decide) (by decide)⟩

/-- C8 as stated fails: the page is the one tag
`<link rel="stylesheet" href="a.css">` and `a.css` holds a comment with a script
reference to `b.js`.  `inlineJs` after `inlineCss` inlines `b.js` inside the
text the stylesheet brought in; `inlineCss` after `inlineJs` leaves the script
reference there.  The two orders give different texts. -/
theorem order_changes_result :
    inlineJs joinApi (fsOf nestedJsFiles) (inlineCss joinApi (fsOf nestedJsFiles) linkPage "/site".toList)
        "/site".toList
        = "<style>\n/* <script>\nx\n</script> */\n</style>".toList ∧
      inlineCss joinApi (fsOf nestedJsFiles) (inlineJs joinApi (fsOf nestedJsFiles) linkPage "/site".toList)
        "/site".toList
        = "<style>\n/* <script src=\"b.js\"></script> */\n</style>".toList ∧
      inlineJs joinApi (fsOf nestedJsFiles) (inlineCss joinApi (fsOf nestedJsFiles) linkPage "/site".toList)
        "/site".toList
        ≠ inlineCss joinApi (fsOf nestedJsFiles)
            (inlineJs joinApi (fsOf nestedJsFiles) linkPage "/site".toList) "/site".toList := by
  decide

/-- C8, amended: `inlineJs` after `inlineCss` and `inlineCss` after `inlineJs`
give the same text in three cases.  First, under the benign precondition on the
four scans involved, those of `html`, of `inlineCss html` and of
`inlineJs html`: no path of a matched reference holds `<`, no content read holds
`<` or `$`.  Second, when no stylesheet reference of `html` or of
`inlineJs html` has a file that is read.  Third, when no script reference of
`html` or of `inlineCss html` has a file that is read. -/
theorem order_of_inliners (api : PathApi) (fs : Fs) (baseDir html : Str) :
    (benign api fs baseDir (matchAll cssRegex html) = true →
      benign api fs baseDir (matchAll jsRegex html) = true →
      benign api fs baseDir (matchAll jsRegex (inlineCss api fs html baseDir)) = true →
      benign api fs baseDir (matchAll cssRegex (inlineJs api fs html baseDir)) = true →
      inlineJs api fs (inlineCss api fs html baseDir) baseDir
        = inlineCss api fs (inlineJs api fs html baseDir) baseDir) ∧
    (unresolvable api fs baseDir (matchAll cssRegex html) = true →
      unresolvable api fs baseDir (matchAll cssRegex (inlineJs api fs html baseDir)) = true →
      inlineJs api fs (inlineCss api fs html baseDir) baseDir
        = inlineCss api fs (inlineJs api fs html baseDir) baseDir) ∧
    (unresolvable api fs baseDir (matchAll jsRegex html) = true →
      unresolvable api fs baseDir (matchAll jsRegex (inlineCss api fs html baseDir)) = true →
      inlineJs api fs (inlineCss api fs html baseDir) baseDir
        = inlineCss api fs (inlineJs api fs html baseDir) baseDir) := by
  refine ⟨?_, ?_, ?_⟩
  · intro h1 h2 h3 h4
    have e1 := (inlineWith_positional cssLaws api fs baseDir html h1).1
    have e2 := (inlineWith_positional jsLaws api fs baseDir html h2).1
    have e3 := (inlineWith_positional jsLaws api fs baseDir _ h3).1
    have e4 := (inlineWith_positional cssLaws api fs baseDir _ h4).1
    rw [← inlineCss_eq] at e1 e4
    rw [← inlineJs_eq] at e2 e3
    rw [e3, e4]
    have h3' := (benign_iff api fs baseDir _).1 h3
    have h4' := (benign_iff api fs baseDir _).1 h4
    rw [e1] at h3' ⊢
    rw [e2] at h4' ⊢
    exact positional_comm cssLaws jsLaws cssJsCross jsCssCross api fs baseDir html.length html
      (Nat.le_refl _) ((benign_iff api fs baseDir _).1 h1) ((benign_iff api fs baseDir _).1 h2)
      (fun m hm => (h3' m hm).1) (fun m hm => (h4' m hm).1)
  · intro h1 h2
    rw [inlineCss_unresolvable api fs html baseDir h1, inlineCss_unresolvable api fs _ baseDir h2]
  · intro h1 h2
    rw [inlineJs_unresolvable api fs html baseDir h1, inlineJs_unresolvable api fs _ baseDir h2]

theorem order_of_inliners_witness :
    inlineJs joinApi (fsOf exampleFiles)
        (inlineCss joinApi (fsOf exampleFiles) mixedPage "/site".toList) "/site".toList
      = inlineCss joinApi (fsOf exampleFiles)
          (inlineJs joinApi (fsOf exampleFiles) mixedPage "/site".toList) "/site".toList ∧
    inlineJs joinApi (fsOf dollarFiles)
        (inlineCss joinApi (fsOf dollarFiles) scriptPage "/site".toList) "/site".toList
      = inlineCss joinApi (fsOf dollarFiles)
          (inlineJs joinApi (fsOf dollarFiles) scriptPage "/site".toList) "/site".toList ∧
    inlineJs joinApi (fsOf dollarFiles)
        (inlineCss joinApi (fsOf dollarFiles) linkPage "/site".toList) "/site".toList
      = inlineCss joinApi (fsOf dollarFiles)
          (inlineJs joinApi (fsOf dollarFiles) linkPage "/site".toList) "/site".toList :=
  ⟨(order_of_inliners joinApi (fsOf exampleFiles) "/site".toList mixedPage).1
      (by decide) (by decide) (by decide) (by decide),
    (order_of_inliners joinApi (fsOf dollarFiles) "/site".toList scriptPage).2.1
      (by decide) (by decide),
    (order_of_inliners joinApi (fsOf dollarFiles) "/site".toList linkPage).2.2
      (by decide) (by decide)⟩

/-- C9: on every machine, for every input path and every output path, the
promise of `processHtml` is fulfilled, never rejected, whether the input is
missing, its read fails or the write fails; and when the input path does not
exist, no write is performed and the machine, the file at the output path
included, is left as it was. -/
theorem missing_input_hard_stop (api : PathApi) (w : World) (inputFile outputFile : Str) :
    (processHtml api w inputFile outputFile).completion = Completion.fulfilled ∧
      (existsSync w.files inputFile = false →
        (processHtml api w inputFile outputFile).written = none ∧
        (processHtml api w inputFile outputFile).world = w) := by
  constructor
  · unfold processHtml
    split <;> rfl
  · intro h
    simp [processHtml, processHtmlBody, h]

theorem missing_input_hard_stop_witness :
    existsSync (worldOf exampleFiles).files "/site/index.html".toList = false ∧
      (processHtml joinApi (worldOf exampleFiles) "/site/index.html".toList
          "/site/a.css".toList).completion = Completion.fulfilled ∧
      (processHtml joinApi (worldOf exampleFiles) "/site/index.html".toList
          "/site/a.css".toList).written = none ∧
      (processHtml joinApi (worldOf exampleFiles) "/site/index.html".toList
          "/site/a.css".toList).world = worldOf exampleFiles :=
  have h := missing_input_hard_stop joinApi (worldOf exampleFiles) "/site/index.html".toList
    "/site/a.css".toList
  ⟨by decide, h.1, (h.2 (by decide)).1, (h.2 (by decide)).2⟩

/-- C10: under the benign precondition (no path of a matched reference holds
`<`, no content read for a matched reference holds `<` or `$`), `inlineCss html`
is the positional replacement of the stylesheet references of `html`, every
match whose file is read replaced at its own position by the `<style>` block
and every other character kept, and the tag text of no inlined reference is
left in the result, so that each of its occurrences is replaced; the same holds
for `inlineJs` with the `<script>` block. -/
theorem inline_eq_positional (api : PathApi) (fs : Fs) (baseDir html : Str) :
    (benign api fs baseDir (matchAll cssRegex html) = true →
        inlineCss api fs html baseDir = positionalCss api fs html baseDir ∧
        ∀ m ∈ matchAll cssRegex html, (lookup api fs baseDir m.2).isSome = true →
          ¬ m.1 <:+: inlineCss api fs html baseDir) ∧
    (benign api fs baseDir (matchAll jsRegex html) = true →
        inlineJs api fs html baseDir = positionalJs api fs html baseDir ∧
        ∀ m ∈ matchAll jsRegex html, (lookup api fs baseDir m.2).isSome = true →
          ¬ m.1 <:+: inlineJs api fs html baseDir) := by
  constructor
  · intro h
    rw [inlineCss_eq]
    refine ⟨(inlineWith_positional cssLaws api fs baseDir html h).1, ?_⟩
    intro m hm hl
    obtain ⟨c, hc⟩ := Option.isSome_iff_exists.1 hl
    exact inlineWith_removes cssLaws api fs baseDir html h m hm c hc
  · intro h
    rw [inlineJs_eq]
    refine ⟨(inlineWith_positional jsLaws api fs baseDir html h).1, ?_⟩
    intro m hm hl
    obtain ⟨c, hc⟩ := Option.isSome_iff_exists.1 hl
    exact inlineWith_removes jsLaws api fs baseDir html h m hm c hc

theorem inline_eq_positional_witness :
    (inlineCss joinApi (fsOf exampleFiles) twicePage "/site".toList
        = positionalCss joinApi (fsOf exampleFiles) twicePage "/site".toList ∧
      positionalCss joinApi (fsOf exampleFiles) twicePage "/site".toList = twicePageCss) ∧
    (inlineJs joinApi (fsOf exampleFiles) twicePage "/site".toList
        = positionalJs joinApi (fsOf exampleFiles) twicePage "/site".toList ∧
      positionalJs joinApi (fsOf exampleFiles) twicePage "/site".toList = twicePageJs) :=
  ⟨⟨((inline_eq_positional joinApi (fsOf exampleFiles) "/site".toList twicePage).1
        (by decide)).1, by decide⟩,
    ⟨((inline_eq_positional joinApi (fsOf exampleFiles) "/site".toList twicePage).2
        (by decide)).1, by decide⟩⟩

end Build
